import Mathlib

/-!
# Verification of the pyraknet reliability layer

Shallow embedding of the core of `pyraknet` (RakNet 3.25 reliability layer):
the range list (`src/_rangelist.py`), the bit-stream codec (`src/bitstream.py`),
the RTO/congestion-window calculators (`src/pyraknet/transports/raknet/calcs.py`)
and the per-connection reliability state machine
(`src/pyraknet/transports/raknet/connection.py`, `src/_reliability.py`),
together with theorems checking the natural-language specification against it.

Python `int` values are modelled as `Nat`/`Int`; IEEE doubles that only undergo
exact arithmetic in the modelled paths are rendered as exact rationals (`ℚ`),
with `float("inf")` as the top element of `WithTop ℚ`.  Byte strings are lists
of naturals below 256.
-/

set_option maxRecDepth 8000

namespace Pyraknet

/-! ## Range list (`src/_rangelist.py`) -/

/-- Inclusive integer range, mirroring class `_Range` of `src/_rangelist.py`.
Both endpoints are message numbers, i.e. naturals. -/
structure RRange where
  min : Nat
  max : Nat
deriving DecidableEq, Repr

/-- The loop body of `RangeList.insert` (`src/_rangelist.py` lines 70-96), as a
recursion over the sorted range list.  The Python test `range.max == item - 1`
is rendered as `r.max + 1 = item`, which agrees with the Python integer test
for every natural `item` (for `item = 0` both sides are false, since ranges
hold naturals). -/
def insertAux (item : Nat) : List RRange → List RRange
  | [] => [⟨item, item⟩]
  | r :: rest =>
    if r.min = item + 1 then ⟨r.min - 1, r.max⟩ :: rest
    else if r.min ≤ item then
      if r.max + 1 = item then
        match rest with
        | nextr :: rest' =>
          if nextr.min = item + 1 then ⟨r.min, nextr.max⟩ :: rest'
          else ⟨r.min, r.max + 1⟩ :: nextr :: rest'
        | [] => [⟨r.min, r.max + 1⟩]
      else if item ≤ r.max then r :: rest
      else r :: insertAux item rest
    else ⟨item, item⟩ :: r :: rest

/-- Mirror of class `RangeList` of `src/_rangelist.py`: a list of inclusive
ranges, kept sorted by the insertion routine. -/
structure RangeList where
  ranges : List RRange
deriving DecidableEq, Repr

namespace RangeList

/-- The empty `RangeList` (`RangeList.__init__`). -/
def empty : RangeList := ⟨[]⟩

/-- `RangeList.insert`. -/
def insert (l : RangeList) (item : Nat) : RangeList :=
  ⟨insertAux item l.ranges⟩

/-- `RangeList.__iter__`: the contained integers, uncompressed.  Python's
`range(min, max + 1)` is `List.range' min (max + 1 - min)` (both are empty
when `max < min`). -/
def toList (l : RangeList) : List Nat :=
  l.ranges.flatMap fun r => List.range' r.min (r.max + 1 - r.min)

/-- `RangeList.__contains__` (for integer arguments). -/
def containsB (l : RangeList) (item : Nat) : Bool :=
  l.ranges.any fun r => r.min ≤ item && item ≤ r.max

/-- `RangeList.__len__`: `len += range_.max - range_.min + 1` over Python ints. -/
def lenInt (l : RangeList) : Int :=
  l.ranges.foldl (fun acc r => acc + ((r.max : Int) - (r.min : Int) + 1)) 0

/-- Tail of `RangeList.holes`: `last_max` is the `max` of the previous range,
and `range(last_max + 1, range_.min)` is emitted before each later range. -/
def holesAux (lastMax : Nat) : List RRange → List Nat
  | [] => []
  | r :: rest => List.range' (lastMax + 1) (r.min - (lastMax + 1)) ++ holesAux r.max rest

/-- `RangeList.holes`: the integers strictly between consecutive ranges.
The first range only initializes `last_max`. -/
def holes (l : RangeList) : List Nat :=
  match l.ranges with
  | [] => []
  | r :: rest => holesAux r.max rest

/-- Tail of `RangeList.num_holes`, accumulating `range.min - last_max - 1`
over Python ints. -/
def numHolesAux (lastMax : Nat) : List RRange → Int
  | [] => 0
  | r :: rest => ((r.min : Int) - (lastMax : Int) - 1) + numHolesAux r.max rest

/-- `RangeList.num_holes`. -/
def numHoles (l : RangeList) : Int :=
  match l.ranges with
  | [] => 0
  | r :: rest => numHolesAux r.max rest

/-- Insert every element of a list in order (repeated `RangeList.insert`). -/
def insertAll (l : RangeList) (items : List Nat) : RangeList :=
  items.foldl insert l

end RangeList

/-- The ordering/adjacency relation of a well-formed range list: consecutive
ranges are disjoint and non-adjacent. -/
def RangeRel (a b : RRange) : Prop := a.max + 1 < b.min

/-- Well-formedness of a range-list representation: every range is non-empty
and consecutive ranges are sorted, disjoint and non-adjacent. -/
def RangesWF (l : List RRange) : Prop :=
  (∀ r ∈ l, r.min ≤ r.max) ∧ l.Chain' RangeRel

/-- Set-membership in a list of ranges (the semantics of
`RangeList.__contains__`). -/
def InRanges (l : List RRange) (n : Nat) : Prop :=
  ∃ r ∈ l, r.min ≤ n ∧ n ≤ r.max

/-- The range list built by inserting `1,2,4,5,8,9,15,19` into an empty list,
as in the spec's range-list example and `src/tests/test_rangelist.py`. -/
def exampleRangeList : RangeList :=
  RangeList.empty.insertAll [1, 2, 4, 5, 8, 9, 15, 19]

/-! ## RTO and congestion-window calculators
(`src/pyraknet/transports/raknet/calcs.py`)

The Python floats only undergo exact arithmetic in the claims considered here;
they are modelled as exact rationals, with `float("inf")` as `⊤ : WithTop ℚ`. -/

/-- Mirror of class `RTOCalc`: smoothed RTT, RTT variation and retransmission
timeout, with `srtt = -1` as the "no sample yet" sentinel. -/
structure RTOCalc where
  srtt : ℚ
  rttVar : ℚ
  rto : ℚ
deriving DecidableEq, Repr

/-- `RTOCalc.__init__`. -/
def RTOCalc.init : RTOCalc := ⟨-1, -1, 1⟩

/-- `RTOCalc.update`. -/
def RTOCalc.update (c : RTOCalc) (rtt : ℚ) : RTOCalc :=
  if c.srtt = -1 then
    let srtt := rtt
    let rttVar := rtt / 2
    ⟨srtt, rttVar, max 1 (srtt + 4 * rttVar)⟩
  else
    let alpha : ℚ := 1/8
    let beta : ℚ := 1/4
    let rttVar := (1 - beta) * c.rttVar + beta * |c.srtt - rtt|
    let srtt := (1 - alpha) * c.srtt + alpha * rtt
    ⟨srtt, rttVar, max 1 (srtt + 4 * rttVar)⟩

/-- Mirror of class `CWNDCalc`: congestion window and slow-start threshold. -/
structure CWNDCalc where
  cwnd : ℚ
  ssthresh : WithTop ℚ
deriving DecidableEq, Repr

/-- `CWNDCalc.__init__`: `cwnd = 1`, `ssthresh = float("inf")`. -/
def CWNDCalc.init : CWNDCalc := ⟨1, ⊤⟩

/-- `CWNDCalc.update`.  The Python statements
`self._ssthresh = self._cwnd/2; self._cwnd = self._ssthresh` assign the same
(finite) halved window to both fields. -/
def CWNDCalc.update (c : CWNDCalc) (packetsSent numAcks numHoles : Int) : CWNDCalc :=
  if 0 < numHoles then
    let t : ℚ := c.cwnd / 2
    ⟨t, (t : WithTop ℚ)⟩
  else if c.cwnd ≤ (packetsSent : ℚ) then
    if c.ssthresh < ((numAcks : ℚ) : WithTop ℚ) then
      ⟨c.cwnd + (numAcks : ℚ) / c.cwnd, c.ssthresh⟩
    else
      ⟨c.cwnd + (numAcks : ℚ), c.ssthresh⟩
  else c

/-! ## Packet records and connection state
(`src/pyraknet/transports/raknet/connection.py`, `src/_reliability.py`) -/

/-- `PacketReliability` / `Reliability`: the five wire reliability values.
`ReliableSequenced` is defined but never transmitted or accepted. -/
inductive Reliability
  | Unreliable
  | UnreliableSequenced
  | Reliable
  | ReliableOrdered
  | ReliableSequenced
deriving DecidableEq, Repr

/-- Wire value of the reliability enum (written as 3 bits). -/
def Reliability.val : Reliability → Nat
  | .Unreliable => 0
  | .UnreliableSequenced => 1
  | .Reliable => 2
  | .ReliableOrdered => 3
  | .ReliableSequenced => 4

/-- Python exceptions that the modelled paths can raise. -/
inductive PyErr
  | eofError       -- `EOFError` from `ReadStream._read_bytes`
  | indexError     -- sequence index out of range
  | valueError     -- invalid enum value, e.g. `Reliability(5)`
  | assertionError -- failed `assert`
deriving DecidableEq, Repr

deriving instance DecidableEq for Except

/-- One packet record of a datagram, as parsed by `_parse_packets`:
message number, reliability, ordering index (present exactly for
UnreliableSequenced/ReliableOrdered), split info `(split_id, part_index,
part_count)` (present when the split bit is set), and the payload bytes. -/
structure Record where
  messageNumber : Nat
  reliability : Reliability
  orderingIndex : Option Nat
  splitInfo : Option (Nat × Nat × Nat)
  payload : List Nat
deriving DecidableEq, Repr

/-- Dictionary lookup, `key in dict` / `dict[key]`. -/
def lookupAssoc {α : Type} (l : List (Nat × α)) (k : Nat) : Option α :=
  match l with
  | [] => none
  | p :: rest => if p.1 = k then some p.2 else lookupAssoc rest k

/-- Dictionary store `dict[key] = value`: replaces the value of an existing
key, otherwise appends (Python dicts preserve insertion order). -/
def setAssoc {α : Type} (l : List (Nat × α)) (k : Nat) (v : α) : List (Nat × α) :=
  match l with
  | [] => [(k, v)]
  | p :: rest => if p.1 = k then (k, v) :: rest else p :: setAssoc rest k v

/-- Dictionary deletion, `del dict[key]` / `dict.pop(key)`. -/
def eraseAssoc {α : Type} (l : List (Nat × α)) (k : Nat) : List (Nat × α) :=
  match l with
  | [] => []
  | p :: rest => if p.1 = k then rest else p :: eraseAssoc rest k

/-- Mutable state of `RaknetConnection` (timer handles are modelled as the
booleans "armed or not"; the transport and the event dispatcher are
external). -/
structure RaknetConn where
  lastAckTime : ℚ
  startTime : Nat
  splitPacketId : Nat
  remoteSystemTime : Nat
  acks : RangeList
  sendAcksArmed : Bool
  rtoCalc : RTOCalc
  cwndCalc : CWNDCalc
  packetsSent : Nat
  sendMessageNumberIndex : Nat
  sequencedWriteIndex : Nat
  sequencedReadIndex : Nat
  orderedWriteIndex : Nat
  orderedReadIndex : Nat
  lastRelReceived : List Int
  outOfOrderPackets : List (Nat × List Nat)
  splitPacketQueue : List (Nat × List (Option (List Nat)))
  resends : List Nat
  checkCloseArmed : Bool
deriving DecidableEq, Repr

/-- `RaknetConnection.__init__` (with the creation clock at 0). -/
def RaknetConn.init : RaknetConn where
  lastAckTime := 0
  startTime := 0
  splitPacketId := 0
  remoteSystemTime := 0
  acks := RangeList.empty
  sendAcksArmed := false
  rtoCalc := RTOCalc.init
  cwndCalc := CWNDCalc.init
  packetsSent := 0
  sendMessageNumberIndex := 0
  sequencedWriteIndex := 0
  sequencedReadIndex := 0
  orderedWriteIndex := 0
  orderedReadIndex := 0
  lastRelReceived := List.replicate 20 (-1)
  outOfOrderPackets := []
  splitPacketQueue := []
  resends := []
  checkCloseArmed := true

/-- The `while ord in self._out_of_order_packets` drain loop of the
ReliableOrdered branch (lines 222-226 of `connection.py`): advance
`ordered_read_index`, pop and yield the buffered payload, and continue with
`ord + 1`. -/
def drainLoop (s : RaknetConn) (ord : Nat) : RaknetConn × List (List Nat) :=
  match h : lookupAssoc s.outOfOrderPackets ord with
  | some p =>
    let s' := { s with orderedReadIndex := s.orderedReadIndex + 1,
                       outOfOrderPackets := eraseAssoc s.outOfOrderPackets ord }
    let res := drainLoop s' (ord + 1)
    (res.1, p :: res.2)
  | none => (s, [])
termination_by s.outOfOrderPackets.length
decreasing_by
  have key : ∀ (l : List (Nat × List Nat)) (k : Nat) (v : List Nat),
      lookupAssoc l k = some v → (eraseAssoc l k).length < l.length := by
    intro l k v hl
    induction l with
    | nil => simp [lookupAssoc] at hl
    | cons p rest ih =>
      rw [lookupAssoc] at hl
      by_cases hk : p.1 = k
      · simp [eraseAssoc, hk]
      · rw [if_neg hk] at hl
        simpa [eraseAssoc, hk] using ih hl
  simpa using key _ _ _ h

/-- The per-reliability ordering filter at the end of `_parse_packets`
(lines 212-235 of `connection.py`).  The `yield packet_data` of line 235 sits
at the loop level: every path that does not `continue` also yields the current
payload — in particular the "packet arrived too early" branch both buffers and
yields it, and the in-order branch yields the drained successors before the
current payload. -/
def orderingFilter (s : RaknetConn) (r : Record) (payload : List Nat) :
    RaknetConn × List (List Nat) :=
  if r.reliability = .UnreliableSequenced then
    let oi := r.orderingIndex.getD 0
    if s.sequencedReadIndex ≤ oi then
      ({ s with sequencedReadIndex := oi + 1 }, [payload])
    else (s, [])
  else if r.reliability = .ReliableOrdered then
    let oi := r.orderingIndex.getD 0
    if oi = s.orderedReadIndex then
      let res := drainLoop { s with orderedReadIndex := s.orderedReadIndex + 1 } (oi + 1)
      (res.1, res.2 ++ [payload])
    else if oi < s.orderedReadIndex then (s, [])
    else ({ s with outOfOrderPackets := setAssoc s.outOfOrderPackets oi payload },
          [payload])
  else (s, [payload])

/-- The Reliable duplicate check (lines 204-210 of `connection.py`: ring of
the last 20 reliable message numbers, oldest evicted on push) followed by the
ordering filter. -/
def relFilter (s : RaknetConn) (r : Record) (payload : List Nat) :
    RaknetConn × List (List Nat) × Option PyErr :=
  if r.reliability = .Reliable then
    if (r.messageNumber : Int) ∈ s.lastRelReceived then (s, [], none)
    else
      let s := { s with
        lastRelReceived := s.lastRelReceived.drop 1 ++ [(r.messageNumber : Int)] }
      let res := orderingFilter s r payload
      (res.1, res.2, none)
  else
    let res := orderingFilter s r payload
    (res.1, res.2, none)

/-- Processing of one parsed packet record
(`RaknetConnection._parse_packets`, lines 169-235): ACK accumulation and
ACK-flush arming, split-packet reassembly, then the duplicate/ordering
filters.  Returns the successor state, the payloads this record delivers
upstream (the `yield`s, in order), and the raised Python exception if any
(`IndexError` when a split index is outside its slot array; a slot array
freshly created for an unknown split id persists in the queue then, since
Python stores `[None]*count` before the raising index assignment). -/
def processRecord (s : RaknetConn) (r : Record) :
    RaknetConn × List (List Nat) × Option PyErr :=
  let s := if r.reliability = .Reliable ∨ r.reliability = .ReliableOrdered then
      { s with acks := s.acks.insert r.messageNumber, sendAcksArmed := true }
    else s
  match r.splitInfo with
  | some (sid, sidx, scnt) =>
    let slots := match lookupAssoc s.splitPacketQueue sid with
      | some slots => slots
      | none => List.replicate scnt none
    if sidx < slots.length then
      let slots := slots.set sidx (some r.payload)
      if slots.all (fun o => o.isSome) then
        let payload := slots.flatMap (fun o => o.getD [])
        relFilter { s with splitPacketQueue := eraseAssoc s.splitPacketQueue sid }
          r payload
      else
        ({ s with splitPacketQueue := setAssoc s.splitPacketQueue sid slots }, [], none)
    else
      ({ s with splitPacketQueue :=
          match lookupAssoc s.splitPacketQueue sid with
          | some _ => s.splitPacketQueue
          | none => setAssoc s.splitPacketQueue sid (List.replicate scnt none) },
        [], some .indexError)
  | none => relFilter s r r.payload

/-- Feed a list of parsed records through `processRecord`, accumulating the
delivered payloads; the generator stops at the first raised exception. -/
def processRecords (s : RaknetConn) : List Record → RaknetConn × List (List Nat) × Option PyErr
  | [] => (s, [], none)
  | r :: rs =>
    let res := processRecord s r
    match res.2.2 with
    | some e => (res.1, res.2.1, some e)
    | none =>
      let rest := processRecords res.1 rs
      (rest.1, res.2.1 ++ rest.2.1, rest.2.2)

/-- A non-split ReliableOrdered record. -/
def ordRecord (mn oi : Nat) (payload : List Nat) : Record :=
  ⟨mn, .ReliableOrdered, some oi, none, payload⟩

/-- A non-split UnreliableSequenced record. -/
def useqRecord (mn oi : Nat) (payload : List Nat) : Record :=
  ⟨mn, .UnreliableSequenced, some oi, none, payload⟩

/-- A non-split Reliable record. -/
def relRecord (mn : Nat) (payload : List Nat) : Record :=
  ⟨mn, .Reliable, none, none, payload⟩

/-- The payload a record effectively carries into the duplicate/ordering
filters: its own payload for non-split records, the reassembled payload for a
completing fragment, nothing for a buffered or out-of-range fragment. -/
def effectivePayload (s : RaknetConn) (r : Record) : Option (List Nat) :=
  match r.splitInfo with
  | none => some r.payload
  | some (sid, sidx, scnt) =>
    let slots := match lookupAssoc s.splitPacketQueue sid with
      | some slots => slots
      | none => List.replicate scnt none
    if sidx < slots.length then
      let slots := slots.set sidx (some r.payload)
      if slots.all (fun o => o.isSome) then some (slots.flatMap (fun o => o.getD []))
      else none
    else none

/-- Whether processing the record pushes its message number onto the
`recent_reliable` ring: it must reach the filters with a payload, be Reliable,
and not already be in the ring. -/
def ringPush (s : RaknetConn) (r : Record) : Prop :=
  (effectivePayload s r).isSome = true ∧ r.reliability = .Reliable ∧
    (r.messageNumber : Int) ∉ s.lastRelReceived

instance (s : RaknetConn) (r : Record) : Decidable (ringPush s r) := by
  unfold ringPush; infer_instance

/-- The message numbers pushed onto the `recent_reliable` ring while a list of
records is processed (stopping, like the parser, at the first exception). -/
def ringPushes (s : RaknetConn) : List Record → List Int
  | [] => []
  | r :: rs =>
    let res := processRecord s r
    (if ringPush s r then [(r.messageNumber : Int)] else []) ++
      (match res.2.2 with
       | some _ => []
       | none => ringPushes res.1 rs)

/-! ## Send path (`RaknetConnection._send` / `_schedule_send`,
`src/pyraknet/transports/raknet/connection.py` lines 65-101) -/

/-- `MTU_SIZE` (hardcoded to 1228 by the game this library targets). -/
def MTU_SIZE : Nat := 1228

/-- `UDP_HEADER_SIZE`. -/
def UDP_HEADER_SIZE : Nat := 28

/-- `RaknetConnection._packet_header_length`: the maximum packet header
length in bytes for a reliability, with compressed fields counted at their
maximum size; `int(math.ceil(length / 8))` is `(length + 7) / 8`. -/
def packetHeaderLength (reliability : Reliability) (isSplitPacket : Bool) : Nat :=
  let length := 32 + 3
  let length :=
    if reliability = .UnreliableSequenced ∨ reliability = .ReliableOrdered then
      length + 5 + 32
    else length
  let length := length + 1
  let length := if isSplitPacket then length + 16 + 32 + 32 else length
  let length := length + 16
  (length + 7) / 8

/-- A packet handed to `_schedule_send`: payload chunk, message number,
reliability, ordering index, and split info `(split_id, part_index,
part_count)`. -/
structure OutgoingPacket where
  data : List Nat
  messageNumber : Nat
  reliability : Reliability
  orderingIndex : Option Nat
  splitInfo : Option (Nat × Nat × Nat)
deriving DecidableEq, Repr

/-- The chunking loop of `_send` (lines 77-82): slice
`data[data_offset : data_offset + chunkLen]` and advance by `chunkLen` while
`data_offset < len(data)`.  `chunkLen` is positive at both call sites. -/
def chunkLoop (data : List Nat) (chunkLen : Nat) (hpos : 0 < chunkLen)
    (dataOffset : Nat) : List (List Nat) :=
  if dataOffset < data.length then
    (data.drop dataOffset).take chunkLen :: chunkLoop data chunkLen hpos (dataOffset + chunkLen)
  else []
termination_by data.length - dataOffset
decreasing_by omega

/-- `RaknetConnection._schedule_send` (lines 95-101): record the
retransmission entry for reliable reliabilities, and transmit immediately
only if the congestion window allows (`_send_packet`'s wire write is not
modelled; the scheduled packet itself is returned). -/
def scheduleSend (s : RaknetConn) (data : List Nat) (messageNumber : Nat)
    (reliability : Reliability) (orderingIndex : Option Nat)
    (splitPacketInfo : Option (Nat × Nat × Nat)) : RaknetConn × OutgoingPacket :=
  let s := if reliability = .Reliable ∨ reliability = .ReliableOrdered then
      { s with resends := s.resends ++ [messageNumber] }
    else s
  let s := if s.cwndCalc.cwnd ≤ (s.packetsSent : ℚ) then s
    else { s with packetsSent := s.packetsSent + 1 }
  (s, ⟨data, messageNumber, reliability, orderingIndex, splitPacketInfo⟩)

/-- Positivity of the chunk length `MTU_SIZE - UDP_HEADER_SIZE -
packet_header_length(reliability, True)`, needed for the chunk loop. -/
def chunkLenPos (reliability : Reliability) :
    0 < MTU_SIZE - UDP_HEADER_SIZE - packetHeaderLength reliability true := by
  cases reliability <;> decide

/-- The ordering-index assignment of `_send` (lines 66-74): sequenced and
ordered sends consume the matching write index. -/
def sendOrderingStep (s : RaknetConn) (reliability : Reliability) :
    Option Nat × RaknetConn :=
  if reliability = .UnreliableSequenced then
    (some s.sequencedWriteIndex,
      { s with sequencedWriteIndex := s.sequencedWriteIndex + 1 })
  else if reliability = .ReliableOrdered then
    (some s.orderedWriteIndex,
      { s with orderedWriteIndex := s.orderedWriteIndex + 1 })
  else (none, s)

/-- One iteration of the scheduling loop of `_send` (lines 84-90): a fresh
message number and a `_schedule_send` of the chunk with its split info. -/
def sendFoldStep (reliability : Reliability) (orderingIndex : Option Nat)
    (splitPacketId partCount : Nat) (acc : RaknetConn × List OutgoingPacket)
    (ic : Nat × List Nat) : RaknetConn × List OutgoingPacket :=
  let messageNumber := acc.1.sendMessageNumberIndex
  let s := { acc.1 with sendMessageNumberIndex := acc.1.sendMessageNumberIndex + 1 }
  let res := scheduleSend s ic.2 messageNumber reliability orderingIndex
    (some (splitPacketId, ic.1, partCount))
  (res.1, acc.2 ++ [res.2])

/-- `RaknetConnection._send` (lines 65-93): assign the ordering index for
sequenced/ordered sends, split the payload if
`_packet_header_length(reliability, False) + len(data) >= MTU_SIZE -
UDP_HEADER_SIZE`, and hand each resulting packet to `_schedule_send` with a
fresh message number.  Returns the successor state and the scheduled packets
in order. -/
def RaknetConn.send (s : RaknetConn) (data : List Nat) (reliability : Reliability) :
    RaknetConn × List OutgoingPacket :=
  let oiStep := sendOrderingStep s reliability
  let orderingIndex := oiStep.1
  let s := oiStep.2
  if MTU_SIZE - UDP_HEADER_SIZE ≤ packetHeaderLength reliability false + data.length then
    let chunks := chunkLoop data (MTU_SIZE - UDP_HEADER_SIZE - packetHeaderLength reliability true)
      (chunkLenPos reliability) 0
    let splitPacketId := s.splitPacketId
    let s := { s with splitPacketId := s.splitPacketId + 1 }
    chunks.enum.foldl (sendFoldStep reliability orderingIndex splitPacketId chunks.length)
      (s, [])
  else
    let messageNumber := s.sendMessageNumberIndex
    let s := { s with sendMessageNumberIndex := s.sendMessageNumberIndex + 1 }
    let res := scheduleSend s data messageNumber reliability orderingIndex none
    (res.1, [res.2])

/-! ## Bit-stream codec (`src/bitstream.py`)

Byte strings are lists of naturals below 256; offsets count bits, with bit 7
the first bit of each byte. -/

/-- Little-endian value of a byte string (`struct.unpack` of an unsigned
little-endian integer). -/
def leVal : List Nat → Nat
  | [] => 0
  | b :: rest => b + 256 * leVal rest

/-- The `size` little-endian bytes of `value`
(`struct.pack` of an unsigned little-endian integer). -/
def leBytes : Nat → Nat → List Nat
  | 0, _ => []
  | size + 1, value => value % 256 :: leBytes size (value / 256)

/-- Big-endian value of a byte string (`int.from_bytes(b, "big")`). -/
def beVal (l : List Nat) : Nat := l.foldl (fun acc b => acc * 256 + b) 0

/-- The `size` big-endian bytes of `value` (`value.to_bytes(size, "big")`). -/
def beBytes (size value : Nat) : List Nat := (leBytes size value).reverse

/-- Mirror of `WriteStream`: growable byte buffer plus bit-level write
offset. -/
structure WriteStream where
  data : List Nat
  writeOffset : Nat
deriving DecidableEq, Repr

/-- `WriteStream.__init__`. -/
def WriteStream.empty : WriteStream := ⟨[], 0⟩

/-- `WriteStream._alloc_bits`: extend the buffer with zero bytes up to
`ceil((offset + n) / 8)` bytes. -/
def WriteStream.allocBits (w : WriteStream) (n : Nat) : WriteStream :=
  { w with data := w.data ++ List.replicate ((w.writeOffset + n + 7) / 8 - w.data.length) 0 }

/-- Update the byte at index `i` with `f`
(Python `self._data[i] |= x` / `self._data[i] = x`). -/
def updByte (data : List Nat) (i : Nat) (f : Nat → Nat) : List Nat :=
  data.set i (f (data.getD i 0))

/-- `WriteStream._write_bit`. -/
def WriteStream.writeBit (w : WriteStream) (bit : Bool) : WriteStream :=
  let w := w.allocBits 1
  let w := if bit then
      { w with data := (updByte w.data (w.writeOffset / 8)
          (fun b => b ||| (0x80 >>> (w.writeOffset % 8)))) }
    else w
  { w with writeOffset := w.writeOffset + 1 }

/-- `WriteStream.write_bits` (its `assert 0 < number_of_bits < 8` holds at
every modelled call site): the value's low `numberOfBits` bits are
left-aligned at the write offset, possibly straddling a byte boundary. -/
def WriteStream.writeBits (w : WriteStream) (value numberOfBits : Nat) : WriteStream :=
  let w := w.allocBits numberOfBits
  let value := if numberOfBits < 8 then (value <<< (8 - numberOfBits)) &&& 0xff else value
  let off := w.writeOffset
  let data :=
    if off % 8 = 0 then w.data.set (off / 8) value
    else
      let data := updByte w.data (off / 8) (fun b => b ||| (value >>> (off % 8)))
      if 8 - off % 8 < numberOfBits then
        data.set (off / 8 + 1) ((value <<< (8 - off % 8)) &&& 0xff)
      else data
  ⟨data, off + numberOfBits⟩

/-- `WriteStream._write_bytes`.  Aligned: splice the bytes at the byte offset
(Python slice assignment, which extends the buffer as needed).  Misaligned:
shift the bytes right by the bit offset across `len + 1` bytes, OR the first
shifted byte into the current byte, splice the rest. -/
def WriteStream.writeBytes (w : WriteStream) (bytes : List Nat) : WriteStream :=
  let off := w.writeOffset
  let data :=
    if off % 8 = 0 then
      w.data.take (off / 8) ++ bytes ++ w.data.drop (off / 8 + bytes.length)
    else
      let new := beBytes (bytes.length + 1) (beVal bytes <<< (8 - off % 8))
      let data := updByte w.data (off / 8) (fun b => b ||| new.headD 0)
      data.take (off / 8 + 1) ++ new.tail ++ data.drop (off / 8 + 1 + bytes.length)
  ⟨data, off + bytes.length * 8⟩

/-- The descending loop of `WriteStream.write_compressed`
(`src/bitstream.py` lines 354-375); the argument of this recursion is
Python's `current_byte`.  From the high byte down: a lone `1` bit for a zero
byte, else a `0` bit followed by all bytes up to and including the current
one.  For the low byte: if its upper nibble is zero, a `1` bit and the low
4 bits, else a `0` bit and the whole byte. -/
def writeCompressedAux (w : WriteStream) (byteArg : List Nat) : Nat → WriteStream
  | 0 =>
    let b0 := byteArg.getD 0 0
    let isZero := b0 &&& 0xF0 == 0
    let w := w.writeBit isZero
    if isZero then w.writeBits b0 4 else w.writeBytes (byteArg.take 1)
  | currentByte + 1 =>
    let isZero := byteArg.getD (currentByte + 1) 0 == 0
    let w := w.writeBit isZero
    if isZero then writeCompressedAux w byteArg currentByte
    else w.writeBytes (byteArg.take (currentByte + 2))

/-- `WriteStream.write_compressed(byte_arg)` on the packed little-endian
bytes of the integer. -/
def WriteStream.writeCompressed (w : WriteStream) (byteArg : List Nat) : WriteStream :=
  writeCompressedAux w byteArg (byteArg.length - 1)

/-- `WriteStream.align_write`. -/
def WriteStream.alignWrite (w : WriteStream) : WriteStream :=
  if w.writeOffset % 8 ≠ 0 then
    let w := w.allocBits (8 - w.writeOffset % 8)
    { w with writeOffset := w.writeOffset + (8 - w.writeOffset % 8) }
  else w

/-- Mirror of `ReadStream`: a byte string plus bit-level read offset. -/
structure ReadStream where
  data : List Nat
  readOffset : Nat
deriving DecidableEq, Repr

/-- `ReadStream._read_bit` (Python raises `IndexError` when indexing beyond
the buffer). -/
def ReadStream.readBit (st : ReadStream) : Except PyErr (Bool × ReadStream) :=
  if st.readOffset / 8 < st.data.length then
    .ok ((st.data.getD (st.readOffset / 8) 0 &&& (0x80 >>> (st.readOffset % 8))) != 0,
         { st with readOffset := st.readOffset + 1 })
  else .error .indexError

/-- `ReadStream.read_bits` (its `assert 0 < number_of_bits < 8` holds at
every modelled call site). -/
def ReadStream.readBits (st : ReadStream) (numberOfBits : Nat) :
    Except PyErr (Nat × ReadStream) :=
  if st.readOffset / 8 < st.data.length then
    let firstHalf := (st.data.getD (st.readOffset / 8) 0 <<< (st.readOffset % 8)) &&& 0xff
    if st.readOffset % 8 ≠ 0 ∧ 8 - st.readOffset % 8 < numberOfBits then
      if st.readOffset / 8 + 1 < st.data.length then
        .ok ((firstHalf ||| (st.data.getD (st.readOffset / 8 + 1) 0 >>> (8 - st.readOffset % 8)))
               >>> (8 - numberOfBits),
             { st with readOffset := st.readOffset + numberOfBits })
      else .error .indexError
    else
      .ok (firstHalf >>> (8 - numberOfBits),
           { st with readOffset := st.readOffset + numberOfBits })
  else .error .indexError

/-- `ReadStream._read_bytes`: `EOFError` when fewer than the needed bytes
remain; the Python check `len(data) - offset // 8 < num_bytes_read` over
ints is `len(data) < offset // 8 + num_bytes_read` over naturals.  When
misaligned, the first byte is masked below the offset and the
`length + 1`-byte window is shifted back. -/
def ReadStream.readBytes (st : ReadStream) (length : Nat) :
    Except PyErr (List Nat × ReadStream) :=
  let numBytesRead := if st.readOffset % 8 = 0 then length else length + 1
  if st.data.length < st.readOffset / 8 + numBytesRead then .error .eofError
  else
    let output :=
      if st.readOffset % 8 = 0 then
        (st.data.drop (st.readOffset / 8)).take numBytesRead
      else
        let firstByte := st.data.getD (st.readOffset / 8) 0 &&&
          ((1 <<< (8 - st.readOffset % 8)) - 1)
        let window := firstByte :: ((st.data.drop (st.readOffset / 8 + 1)).take (numBytesRead - 1))
        beBytes length (beVal window >>> (8 - st.readOffset % 8))
    .ok (output, { st with readOffset := st.readOffset + length * 8 })

/-- The descending loop of `ReadStream.read_compressed`
(`src/bitstream.py` lines 212-231); the recursion argument is Python's
`current_byte`, `size` the byte width.  Note that the zero padding
`bytes(number_of_bytes - current_byte - 1)` is prepended on the little-endian
(low) side of the bytes read. -/
def readCompressedAux (st : ReadStream) (size : Nat) : Nat → Except PyErr (Nat × ReadStream)
  | 0 => do
    let (bit, st) ← st.readBit
    if bit then do
      let (nibble, st) ← st.readBits 4
      Except.ok (leVal (nibble :: List.replicate (size - 1) 0), st)
    else do
      let (start, st) ← st.readBytes 1
      Except.ok (leVal (start ++ List.replicate (size - 1) 0), st)
  | currentByte + 1 => do
    let (bit, st) ← st.readBit
    if bit then readCompressedAux st size currentByte
    else do
      let (bytes, st) ← st.readBytes (currentByte + 2)
      Except.ok (leVal (List.replicate (size - (currentByte + 1) - 1) 0 ++ bytes), st)

/-- `ReadStream.read_compressed` for a `size`-byte unsigned little-endian
integer type. -/
def ReadStream.readCompressed (st : ReadStream) (size : Nat) :
    Except PyErr (Nat × ReadStream) :=
  readCompressedAux st size (size - 1)

/-- `ReadStream.align_read`. -/
def ReadStream.alignRead (st : ReadStream) : ReadStream :=
  if st.readOffset % 8 ≠ 0 then
    { st with readOffset := st.readOffset + (8 - st.readOffset % 8) }
  else st

/-- `ReadStream.all_read`: byte-granularity end of buffer,
`math.ceil(offset / 8) == len(data)`. -/
def ReadStream.allRead (st : ReadStream) : Bool :=
  (st.readOffset + 7) / 8 == st.data.length

/-- `read(c_uint)`: 4 little-endian bytes. -/
def ReadStream.readU32 (st : ReadStream) : Except PyErr (Nat × ReadStream) := do
  let (bytes, st) ← st.readBytes 4
  Except.ok (leVal bytes, st)

/-- `read(c_ushort)`: 2 little-endian bytes. -/
def ReadStream.readU16 (st : ReadStream) : Except PyErr (Nat × ReadStream) := do
  let (bytes, st) ← st.readBytes 2
  Except.ok (leVal bytes, st)

/-! ## Datagram parsing (`RaknetConnection.handle_datagram`) -/

/-- Connection events dispatched while handling a datagram. -/
inductive ConnEvent
  | Receive (payload : List Nat)
  | Close
deriving DecidableEq, Repr

/-- Modelled from the spec: `src/messages.py` (the `Message` enum) is not in
the source tree; the spec's message-id table gives
`DisconnectionNotification = 0x0d`. -/
def disconnectionNotification : Nat := 0x0d

/-- Modelled from the spec: the spec's message-id table gives
`ConnectionLost = 0x12`. -/
def connectionLost : Nat := 0x12

/-- The `for _ in range(count)` loop of `RangeList.deserialize`
(`src/_rangelist.py` lines 110-122). -/
def deserializeRanges : Nat → ReadStream → List RRange →
    Except PyErr (List RRange × ReadStream)
  | 0, st, acc => Except.ok (acc, st)
  | n + 1, st, acc => do
    let (maxEqualMin, st) ← st.readBit
    let (mn, st) ← st.readU32
    if maxEqualMin then deserializeRanges n st (acc ++ [⟨mn, mn⟩])
    else do
      let (mx, st) ← st.readU32
      deserializeRanges n st (acc ++ [⟨mn, mx⟩])

/-- `RangeList.deserialize`: compressed 16-bit count, then per range one
equality bit, the 32-bit min, and (unless equal) the 32-bit max.  No
well-formedness validation is performed. -/
def RangeList.deserialize (st : ReadStream) : Except PyErr (RangeList × ReadStream) := do
  let (count, st) ← st.readCompressed 2
  let (ranges, st) ← deserializeRanges count st []
  Except.ok (RangeList.mk ranges, st)

/-- The acks branch of `_handle_datagram_header` (lines 122-141): echoed
timestamp, RTO update, ack-range list, resend cancellation,
congestion-window update and ack-time stamp, in statement order.  The state
is returned even when a read raises: the `self` mutations made before the
raise persist, exactly as in Python. -/
def handleAcksHeader (now : ℚ) (s : RaknetConn) (st : ReadStream) :
    RaknetConn × Except PyErr ReadStream :=
  match st.readU32 with
  | .error e => (s, .error e)
  | .ok (oldTime, st) =>
    let rtt := now - (s.startTime : ℚ) / 1000 - (oldTime : ℚ) / 1000
    let s := { s with rtoCalc := s.rtoCalc.update rtt }
    match RangeList.deserialize st with
    | .error e => (s, .error e)
    | .ok (acks, st) =>
      let s := { s with resends := acks.toList.foldl (fun rs mn => rs.erase mn) s.resends }
      let numAcks := acks.lenInt
      let actNumHoles := (acks.holes.filter (fun hole => s.resends.contains hole)).length
      let s := { s with
        cwndCalc := s.cwndCalc.update (s.packetsSent : Int) numAcks (actNumHoles : Int),
        packetsSent := 0,
        lastAckTime := now }
      (s, .ok st)

/-- `RaknetConnection._handle_datagram_header` (lines 120-147), with
`time.perf_counter()` passed in as `now` (in seconds).  Returns the state —
always, since the `self` mutations made before a raise persist in Python —
together with the stream and the acks-only flag on success, or the raised
exception. -/
def handleDatagramHeader (now : ℚ) (s : RaknetConn) (st : ReadStream) :
    RaknetConn × Except PyErr (ReadStream × Bool) :=
  match st.readBit with
  | .error e => (s, .error e)
  | .ok (hasAcks, st) =>
    match (if hasAcks then handleAcksHeader now s st else (s, .ok st)) with
    | (s, .error e) => (s, .error e)
    | (s, .ok st) =>
      if st.allRead then (s, .ok (st, true))
      else
        match st.readBit with
        | .error e => (s, .error e)
        | .ok (hasRemoteSystemTime, st) =>
          if hasRemoteSystemTime then
            match st.readU32 with
            | .error e => (s, .error e)
            | .ok (t, st) => ({ s with remoteSystemTime := t }, .ok (st, false))
          else (s, .ok (st, false))

/-- `Reliability(value)` for a 3-bit wire value: `ValueError` above 4. -/
def reliabilityOfVal (v : Nat) : Except PyErr Reliability :=
  if v = 0 then .ok .Unreliable
  else if v = 1 then .ok .UnreliableSequenced
  else if v = 2 then .ok .Reliable
  else if v = 3 then .ok .ReliableOrdered
  else if v = 4 then .ok .ReliableSequenced
  else .error .valueError

/-- The ordering-channel/ordering-index reads of one `_parse_packets`
iteration (lines 155-158), performed exactly for UnreliableSequenced and
ReliableOrdered records, with the `assert ordering_channel == 0`. -/
def parseOrderingIndex (rel : Reliability) (st : ReadStream) :
    Except PyErr (Option Nat × ReadStream) :=
  if rel = .UnreliableSequenced ∨ rel = .ReliableOrdered then do
    let (ch, st) ← st.readBits 5
    if ch ≠ 0 then Except.error .assertionError
    else do
      let (oi, st) ← st.readU32
      Except.ok ((some oi : Option Nat), st)
  else Except.ok ((none : Option Nat), st)

/-- The split-packet header reads of one `_parse_packets` iteration
(lines 160-164), performed when the split bit is set. -/
def parseSplitInfo (isSplit : Bool) (st : ReadStream) :
    Except PyErr (Option (Nat × Nat × Nat) × ReadStream) :=
  if isSplit then do
    let (sid, st) ← st.readU16
    let (sidx, st) ← st.readCompressed 4
    let (scnt, st) ← st.readCompressed 4
    Except.ok ((some (sid, sidx, scnt) : Option (Nat × Nat × Nat)), st)
  else Except.ok ((none : Option (Nat × Nat × Nat)), st)

/-- The header reads of one `_parse_packets` iteration (lines 150-168):
message number, reliability (with the `ReliableSequenced` assert), ordering
index, split fields, compressed bit length, alignment, payload bytes
(`int(math.ceil(length / 8))` of them). -/
def parseRecord (st : ReadStream) : Except PyErr (Record × ReadStream) := do
  let (mn, st) ← st.readU32
  let (rv, st) ← st.readBits 3
  let rel ← reliabilityOfVal rv
  if rel = .ReliableSequenced then Except.error .assertionError
  else do
    let (oi, st) ← parseOrderingIndex rel st
    let (isSplit, st) ← st.readBit
    let (si, st) ← parseSplitInfo isSplit st
    let (lengthBits, st) ← st.readCompressed 2
    let st := st.alignRead
    let (payload, st) ← st.readBytes ((lengthBits + 7) / 8)
    Except.ok (Record.mk mn rel oi si payload, st)

/-- Map the payloads delivered by one record to dispatched events
(`handle_datagram` lines 114-118): `close()` for the
disconnection/connection-lost ids, otherwise a `Receive`; `packet[0]` raises
`IndexError` on an empty payload, after the earlier events were dispatched. -/
def dispatchEvents : List (List Nat) → List ConnEvent × Option PyErr
  | [] => ([], none)
  | p :: rest =>
    match p with
    | [] => ([], some .indexError)
    | b :: _ =>
      let ev := if b = disconnectionNotification ∨ b = connectionLost then ConnEvent.Close
        else ConnEvent.Receive p
      let res := dispatchEvents rest
      (ev :: res.1, res.2)

/-- Reduction of a successful bind (definitional). -/
def bindOkEq {α β : Type} (a : α) (f : α → Except PyErr β) :
    (Except.ok a >>= f) = f a := rfl

/-- Reduction of a failed bind (definitional). -/
def bindErrEq {α β : Type} (e : PyErr) (f : α → Except PyErr β) :
    (Except.error e >>= f) = (Except.error e : Except PyErr β) := rfl

/-- Progress of `_read_bytes`: the buffer is unchanged, the offset advances by
`8 * length`, and at least `length` whole bytes existed past the offset. -/
def readBytesProgress {st : ReadStream} {n : Nat} {bs : List Nat} {st' : ReadStream}
    (h : st.readBytes n = Except.ok (bs, st')) :
    st'.data = st.data ∧ st'.readOffset = st.readOffset + n * 8 ∧
      st.readOffset / 8 + n ≤ st.data.length := by
  simp only [ReadStream.readBytes] at h
  by_cases ha : st.readOffset % 8 = 0 <;>
    simp only [ha, if_true, if_false, if_pos, if_neg, not_false_iff] at h <;>
    split at h <;>
    first
      | exact Except.noConfusion h
      | (simp only [Except.ok.injEq, Prod.mk.injEq] at h
         obtain ⟨-, h2⟩ := h
         subst h2
         refine ⟨rfl, rfl, ?_⟩
         rename_i hEOF
         omega)

/-- Progress of `_read_bit`. -/
def readBitProgress {st : ReadStream} {b : Bool} {st' : ReadStream}
    (h : st.readBit = Except.ok (b, st')) :
    st'.data = st.data ∧ st'.readOffset = st.readOffset + 1 := by
  simp only [ReadStream.readBit] at h
  split at h
  · simp only [Except.ok.injEq, Prod.mk.injEq] at h
    obtain ⟨-, h2⟩ := h
    subst h2
    exact ⟨rfl, rfl⟩
  · simp at h

/-- Progress of `read_bits`. -/
def readBitsProgress {st : ReadStream} {n v : Nat} {st' : ReadStream}
    (h : st.readBits n = Except.ok (v, st')) :
    st'.data = st.data ∧ st'.readOffset = st.readOffset + n := by
  simp only [ReadStream.readBits] at h
  split at h
  · split at h
    · split at h
      · simp only [Except.ok.injEq, Prod.mk.injEq] at h
        obtain ⟨-, h2⟩ := h
        subst h2
        exact ⟨rfl, rfl⟩
      · simp at h
    · simp only [Except.ok.injEq, Prod.mk.injEq] at h
      obtain ⟨-, h2⟩ := h
      subst h2
      exact ⟨rfl, rfl⟩
  · simp at h

/-- Progress of `read(c_uint)`. -/
def readU32Progress {st : ReadStream} {v : Nat} {st' : ReadStream}
    (h : st.readU32 = Except.ok (v, st')) :
    st'.data = st.data ∧ st'.readOffset = st.readOffset + 32 ∧
      st.readOffset / 8 + 4 ≤ st.data.length := by
  unfold ReadStream.readU32 at h
  cases hx : st.readBytes 4 with
  | error e => rw [hx, bindErrEq] at h; simp at h
  | ok a =>
    obtain ⟨bs, st1⟩ := a
    rw [hx, bindOkEq] at h
    simp only [Except.ok.injEq, Prod.mk.injEq] at h
    obtain ⟨-, rfl⟩ := h
    obtain ⟨hd, ho, hb⟩ := readBytesProgress hx
    exact ⟨hd, by omega, by omega⟩

/-- Progress of `read(c_ushort)`. -/
def readU16Progress {st : ReadStream} {v : Nat} {st' : ReadStream}
    (h : st.readU16 = Except.ok (v, st')) :
    st'.data = st.data ∧ st'.readOffset = st.readOffset + 16 := by
  unfold ReadStream.readU16 at h
  cases hx : st.readBytes 2 with
  | error e => rw [hx, bindErrEq] at h; simp at h
  | ok a =>
    obtain ⟨bs, st1⟩ := a
    rw [hx, bindOkEq] at h
    simp only [Except.ok.injEq, Prod.mk.injEq] at h
    obtain ⟨-, rfl⟩ := h
    obtain ⟨hd, ho, -⟩ := readBytesProgress hx
    exact ⟨hd, by omega⟩

/-- Progress of the `read_compressed` loop: buffer unchanged, offset
non-decreasing. -/
def readCompressedAuxProgress :
    ∀ (cb : Nat) {st : ReadStream} {size v : Nat} {st' : ReadStream},
      readCompressedAux st size cb = Except.ok (v, st') →
      st'.data = st.data ∧ st.readOffset ≤ st'.readOffset := by
  intro cb
  induction cb with
  | zero =>
    intro st size v st' h
    unfold readCompressedAux at h
    cases hx : st.readBit with
    | error e => rw [hx, bindErrEq] at h; simp at h
    | ok a =>
      obtain ⟨b, st1⟩ := a
      rw [hx, bindOkEq] at h
      obtain ⟨hd1, ho1⟩ := readBitProgress hx
      try simp only at h
      split at h
      · cases hy : st1.readBits 4 with
        | error e => rw [hy, bindErrEq] at h; simp at h
        | ok a2 =>
          obtain ⟨nib, st2⟩ := a2
          rw [hy, bindOkEq] at h
          obtain ⟨hd2, ho2⟩ := readBitsProgress hy
          simp only [Except.ok.injEq, Prod.mk.injEq] at h
          obtain ⟨-, rfl⟩ := h
          exact ⟨by rw [hd2, hd1], by omega⟩
      · cases hy : st1.readBytes 1 with
        | error e => rw [hy, bindErrEq] at h; simp at h
        | ok a2 =>
          obtain ⟨bs, st2⟩ := a2
          rw [hy, bindOkEq] at h
          obtain ⟨hd2, ho2, -⟩ := readBytesProgress hy
          simp only [Except.ok.injEq, Prod.mk.injEq] at h
          obtain ⟨-, rfl⟩ := h
          exact ⟨by rw [hd2, hd1], by omega⟩
  | succ n ih =>
    intro st size v st' h
    unfold readCompressedAux at h
    cases hx : st.readBit with
    | error e => rw [hx, bindErrEq] at h; simp at h
    | ok a =>
      obtain ⟨b, st1⟩ := a
      rw [hx, bindOkEq] at h
      obtain ⟨hd1, ho1⟩ := readBitProgress hx
      try simp only at h
      split at h
      · obtain ⟨hd2, ho2⟩ := ih h
        exact ⟨by rw [hd2, hd1], by omega⟩
      · cases hy : st1.readBytes (n + 2) with
        | error e => rw [hy, bindErrEq] at h; simp at h
        | ok a2 =>
          obtain ⟨bs, st2⟩ := a2
          rw [hy, bindOkEq] at h
          obtain ⟨hd2, ho2, -⟩ := readBytesProgress hy
          simp only [Except.ok.injEq, Prod.mk.injEq] at h
          obtain ⟨-, rfl⟩ := h
          exact ⟨by rw [hd2, hd1], by omega⟩

/-- Progress of `read_compressed`. -/
def readCompressedProgress {st : ReadStream} {size v : Nat} {st' : ReadStream}
    (h : st.readCompressed size = Except.ok (v, st')) :
    st'.data = st.data ∧ st.readOffset ≤ st'.readOffset :=
  readCompressedAuxProgress (size - 1) h

/-- Progress of `align_read`. -/
def alignReadProgress (st : ReadStream) :
    st.alignRead.data = st.data ∧ st.readOffset ≤ st.alignRead.readOffset := by
  unfold ReadStream.alignRead
  split
  · exact ⟨rfl, Nat.le_add_right _ _⟩
  · exact ⟨rfl, le_refl _⟩

/-- Progress of the ordering-index stage. -/
def parseOrderingIndexProgress {rel : Reliability} {st : ReadStream}
    {oi : Option Nat} {st' : ReadStream}
    (h : parseOrderingIndex rel st = Except.ok (oi, st')) :
    st'.data = st.data ∧ st.readOffset ≤ st'.readOffset := by
  unfold parseOrderingIndex at h
  split at h
  · cases hA : st.readBits 5 with
    | error e => rw [hA, bindErrEq] at h; exact Except.noConfusion h
    | ok aA =>
      obtain ⟨ch, stA⟩ := aA
      rw [hA, bindOkEq] at h
      obtain ⟨hdA, hoA⟩ := readBitsProgress hA
      try simp only at h
      split at h
      · exact Except.noConfusion h
      · cases hB : stA.readU32 with
        | error e => rw [hB, bindErrEq] at h; exact Except.noConfusion h
        | ok aB =>
          obtain ⟨oiv, stB⟩ := aB
          rw [hB, bindOkEq] at h
          obtain ⟨hdB, hoB, -⟩ := readU32Progress hB
          simp only [Except.ok.injEq, Prod.mk.injEq] at h
          obtain ⟨-, rfl⟩ := h
          exact ⟨by rw [hdB, hdA], by omega⟩
  · simp only [Except.ok.injEq, Prod.mk.injEq] at h
    obtain ⟨-, rfl⟩ := h
    exact ⟨rfl, le_refl _⟩

/-- Progress of the split-info stage. -/
def parseSplitInfoProgress {isSplit : Bool} {st : ReadStream}
    {si : Option (Nat × Nat × Nat)} {st' : ReadStream}
    (h : parseSplitInfo isSplit st = Except.ok (si, st')) :
    st'.data = st.data ∧ st.readOffset ≤ st'.readOffset := by
  unfold parseSplitInfo at h
  split at h
  · cases hA : st.readU16 with
    | error e => rw [hA, bindErrEq] at h; exact Except.noConfusion h
    | ok aA =>
    obtain ⟨sid, stA⟩ := aA
    rw [hA, bindOkEq] at h
    obtain ⟨hdA, hoA⟩ := readU16Progress hA
    try simp only at h
    cases hB : stA.readCompressed 4 with
    | error e => rw [hB, bindErrEq] at h; exact Except.noConfusion h
    | ok aB =>
    obtain ⟨sidx, stB⟩ := aB
    rw [hB, bindOkEq] at h
    obtain ⟨hdB, hoB⟩ := readCompressedProgress hB
    try simp only at h
    cases hC : stB.readCompressed 4 with
    | error e => rw [hC, bindErrEq] at h; exact Except.noConfusion h
    | ok aC =>
    obtain ⟨scnt, stC⟩ := aC
    rw [hC, bindOkEq] at h
    obtain ⟨hdC, hoC⟩ := readCompressedProgress hC
    simp only [Except.ok.injEq, Prod.mk.injEq] at h
    obtain ⟨-, rfl⟩ := h
    exact ⟨by rw [hdC, hdB, hdA], by omega⟩
  · simp only [Except.ok.injEq, Prod.mk.injEq] at h
    obtain ⟨-, rfl⟩ := h
    exact ⟨rfl, le_refl _⟩

/-- Progress of one record parse: the buffer is unchanged, the offset strictly
advances (by at least the 32-bit message number), and the start offset lay at
least 4 bytes before the end of the buffer.  This bounds the
`while not data.all_read()` loop of `_parse_packets`. -/
def parseRecordProgress {st : ReadStream} {r : Record} {st' : ReadStream}
    (h : parseRecord st = Except.ok (r, st')) :
    st'.data = st.data ∧ st.readOffset + 32 ≤ st'.readOffset ∧
      st.readOffset / 8 + 4 ≤ st.data.length := by
  unfold parseRecord at h
  cases h1 : st.readU32 with
  | error e => rw [h1, bindErrEq] at h; exact Except.noConfusion h
  | ok a1 =>
  obtain ⟨mn, st1⟩ := a1
  rw [h1, bindOkEq] at h
  obtain ⟨hd1, ho1, hb1⟩ := readU32Progress h1
  try simp only at h
  cases h2 : st1.readBits 3 with
  | error e => rw [h2, bindErrEq] at h; exact Except.noConfusion h
  | ok a2 =>
  obtain ⟨rv, st2⟩ := a2
  rw [h2, bindOkEq] at h
  obtain ⟨hd2, ho2⟩ := readBitsProgress h2
  try simp only at h
  cases h3 : reliabilityOfVal rv with
  | error e => rw [h3, bindErrEq] at h; exact Except.noConfusion h
  | ok rel =>
  rw [h3, bindOkEq] at h
  try simp only at h
  split at h
  · exact Except.noConfusion h
  · cases h4 : parseOrderingIndex rel st2 with
    | error e => rw [h4, bindErrEq] at h; exact Except.noConfusion h
    | ok a4 =>
    obtain ⟨oiR, st3⟩ := a4
    rw [h4, bindOkEq] at h
    obtain ⟨hd3, ho3⟩ := parseOrderingIndexProgress h4
    try simp only at h
    cases h5 : st3.readBit with
    | error e => rw [h5, bindErrEq] at h; exact Except.noConfusion h
    | ok a5 =>
    obtain ⟨isSplit, st4⟩ := a5
    rw [h5, bindOkEq] at h
    obtain ⟨hd4, ho4⟩ := readBitProgress h5
    try simp only at h
    cases h6 : parseSplitInfo isSplit st4 with
    | error e => rw [h6, bindErrEq] at h; exact Except.noConfusion h
    | ok a6 =>
    obtain ⟨siR, st5⟩ := a6
    rw [h6, bindOkEq] at h
    obtain ⟨hd5, ho5⟩ := parseSplitInfoProgress h6
    try simp only at h
    cases h7 : st5.readCompressed 2 with
    | error e => rw [h7, bindErrEq] at h; exact Except.noConfusion h
    | ok a7 =>
    obtain ⟨lengthBits, st6⟩ := a7
    rw [h7, bindOkEq] at h
    obtain ⟨hd6, ho6⟩ := readCompressedProgress h7
    obtain ⟨hd7, ho7⟩ := alignReadProgress st6
    try simp only at h
    cases h8 : st6.alignRead.readBytes ((lengthBits + 7) / 8) with
    | error e => rw [h8, bindErrEq] at h; exact Except.noConfusion h
    | ok a8 =>
    obtain ⟨payload, st8⟩ := a8
    rw [h8, bindOkEq] at h
    obtain ⟨hd8, ho8, -⟩ := readBytesProgress h8
    simp only [Except.ok.injEq, Prod.mk.injEq] at h
    obtain ⟨-, rfl⟩ := h
    refine ⟨by rw [hd8, hd7, hd6, hd5, hd4, hd3, hd2, hd1], by omega, by omega⟩

/-- The `while not data.all_read()` record loop of `_parse_packets`, combined
with the per-payload event dispatch of `handle_datagram` (lines 109-118).
Each parsed record is processed; its delivered payloads are dispatched in
order (`Close` for disconnection ids, else `Receive`); exceptions abort the
loop, and the state changes and events made before the exception persist.
(Payload delivery of a single record is modelled eagerly; this coincides with
the lazy generator whenever no dispatch exception interrupts a multi-yield
record, which holds for every input used below.) -/
def parseLoop (s : RaknetConn) (st : ReadStream) :
    RaknetConn × List ConnEvent × Option PyErr :=
  if st.allRead then (s, [], none)
  else
    match hp : parseRecord st with
    | .error e => (s, [], some e)
    | .ok rst =>
      let res := processRecord s rst.1
      let evs := dispatchEvents res.2.1
      match res.2.2 with
      | some e => (res.1, evs.1, some e)
      | none =>
        match evs.2 with
        | some e => (res.1, evs.1, some e)
        | none =>
          let rest := parseLoop res.1 rst.2
          (rest.1, evs.1 ++ rest.2.1, rest.2.2)
termination_by 8 * st.data.length + 8 - st.readOffset
decreasing_by
  obtain ⟨hd, ho, hb⟩ := parseRecordProgress hp
  rw [hd]
  omega

/-- `RaknetConnection.handle_datagram` (lines 109-118), with the clock passed
in as `now`: returns the successor state, the dispatched events in order, and
the Python exception that propagates out of `handle_datagram`, if any. -/
def handleDatagram (now : ℚ) (s : RaknetConn) (datagram : List Nat) :
    RaknetConn × List ConnEvent × Option PyErr :=
  match handleDatagramHeader now s ⟨datagram, 0⟩ with
  | (s', .error e) => (s', [], some e)
  | (s', .ok (st, acksOnly)) =>
    if acksOnly then (s', [], none)
    else parseLoop s' st

/-! ## Theorems -/

/-- C7, counterexample: inserting `{1,2,4,5,8,9,15,19}` does NOT produce 3
internal ranges — the claimed conjunction fails on the code (the values form
5 maximal runs: `1-2, 4-5, 8-9, 15, 19`). -/
theorem c7_counterexample :
    ¬ (exampleRangeList.ranges.length = 3 ∧
       exampleRangeList.numHoles = 11 ∧
       exampleRangeList.holes = [3, 6, 7, 10, 11, 12, 13, 14, 16, 17, 18]) := by
  decide

/-- C7, amended: inserting the values `{1,2,4,5,8,9,15,19}` into an empty
RangeList produces a list of 5 internal ranges, with `num_holes() == 11` and
`holes()` yielding `[3,6,7,10,11,12,13,14,16,17,18]`. -/
theorem c7_amended :
    exampleRangeList.ranges.length = 5 ∧
    exampleRangeList.numHoles = 11 ∧
    exampleRangeList.holes = [3, 6, 7, 10, 11, 12, 13, 14, 16, 17, 18] := by
  decide

/-- C8: the congestion-window update behaves branch-for-branch as claimed —
on loss (`num_holes > 0`) both `ssthresh` and `cwnd` become `cwnd / 2`; else
if the window was fully used, `cwnd` grows by `num_acks / cwnd` above
`ssthresh` and by `num_acks` otherwise; else nothing changes — and on the
spec's concrete example (`cwnd=4`, `ssthresh=∞`, `packets_sent=4`,
`num_acks=3`) yields `cwnd=7` without holes and `cwnd=2, ssthresh=2` with one
hole. -/
theorem c8_cwnd_update (c : CWNDCalc) (ps na nh : Int) :
    (0 < nh →
      CWNDCalc.update c ps na nh = ⟨c.cwnd / 2, ((c.cwnd / 2 : ℚ) : WithTop ℚ)⟩) ∧
    (nh ≤ 0 → c.cwnd ≤ (ps : ℚ) → c.ssthresh < ((na : ℚ) : WithTop ℚ) →
      CWNDCalc.update c ps na nh = ⟨c.cwnd + (na : ℚ) / c.cwnd, c.ssthresh⟩) ∧
    (nh ≤ 0 → c.cwnd ≤ (ps : ℚ) → ((na : ℚ) : WithTop ℚ) ≤ c.ssthresh →
      CWNDCalc.update c ps na nh = ⟨c.cwnd + (na : ℚ), c.ssthresh⟩) ∧
    (nh ≤ 0 → (ps : ℚ) < c.cwnd → CWNDCalc.update c ps na nh = c) ∧
    CWNDCalc.update ⟨4, ⊤⟩ 4 3 0 = ⟨7, ⊤⟩ ∧
    CWNDCalc.update ⟨4, ⊤⟩ 4 3 1 = ⟨2, ((2 : ℚ) : WithTop ℚ)⟩ := by
  refine ⟨?_, ?_, ?_, ?_, ?_, ?_⟩
  · intro h
    simp only [CWNDCalc.update, if_pos h]
  · intro h1 h2 h3
    rw [CWNDCalc.update, if_neg (by omega), if_pos h2, if_pos h3]
  · intro h1 h2 h3
    rw [CWNDCalc.update, if_neg (by omega), if_pos h2, if_neg (not_lt.mpr h3)]
  · intro h1 h2
    rw [CWNDCalc.update, if_neg (by omega), if_neg (not_le.mpr h2)]
  · rw [CWNDCalc.update, if_neg (by norm_num), if_pos (by norm_num),
      if_neg (by simp)]
    norm_num
  · rw [CWNDCalc.update, if_pos (by norm_num)]
    norm_num

/-- C8 witness: the loss branch of the update at the spec's concrete input. -/
theorem c8_cwnd_update_witness :
    CWNDCalc.update ⟨4, ⊤⟩ 4 3 1 = ⟨2, ((2 : ℚ) : WithTop ℚ)⟩ :=
  ((c8_cwnd_update ⟨4, ⊤⟩ 4 3 1).1 (by norm_num)).trans
    (by rw [show (4 / 2 : ℚ) = 2 by norm_num])

/-- C1: evaluation of the receive path on ReliableOrdered records with
ordering indices `0,2,1` (payloads `[10],[12],[11]`).  The out-of-order
record is both buffered and yielded immediately (the loop-level
`yield packet_data` of line 235 is reached from the buffering branch, which
has no `continue`), and when the gap fills, the buffered copy is released
before the in-order payload: the code delivers `[10],[12],[12],[11]` instead
of the specified `[10],[11],[12]`. -/
theorem c1_failing_eval :
    (processRecords RaknetConn.init
        [ordRecord 0 0 [10], ordRecord 1 2 [12], ordRecord 2 1 [11]]).2.1 =
      [[10], [12], [12], [11]] := by
  simp [processRecords, processRecord, relFilter, orderingFilter, drainLoop,
    ordRecord, RaknetConn.init, lookupAssoc, setAssoc, eraseAssoc,
    RangeList.insert, RangeList.empty, insertAux]

/-- C3, counterexample: two UnreliableSequenced records with the same
ordering index 5.  The second arrives with `ordering_index ≥` the highest
previously seen (5 ≥ 5), so the claimed iff demands delivery of both
payloads, but the code delivers only the first
(`5 < sequenced_read_index = 6`). -/
theorem c3_counterexample :
    (processRecords RaknetConn.init
        [useqRecord 0 5 [50], useqRecord 1 5 [51]]).2.1 = [[50]] ∧
    [[50]] ≠ [[50], [51]] := by
  constructor
  · simp [processRecords, processRecord, relFilter, orderingFilter,
      useqRecord, RaknetConn.init]
  · decide

/-- C3, amended: a non-split UnreliableSequenced record is delivered iff its
ordering index is at least `sequenced_read_index` — one more than the highest
previously delivered index, i.e. iff it is strictly greater than every
previously seen index — and on delivery `sequenced_read_index` becomes
`ordering_index + 1`; older records are silently dropped.  Feeding ordering
indices 5 then 3 delivers only the payload with index 5. -/
theorem c3_amended (s : RaknetConn) (r : Record) (oi : Nat)
    (hrel : r.reliability = .UnreliableSequenced)
    (hsplit : r.splitInfo = none)
    (hoi : r.orderingIndex = some oi) :
    (s.sequencedReadIndex ≤ oi →
      processRecord s r = ({ s with sequencedReadIndex := oi + 1 }, [r.payload], none)) ∧
    (oi < s.sequencedReadIndex → processRecord s r = (s, [], none)) ∧
    (processRecords RaknetConn.init
        [useqRecord 0 5 [50], useqRecord 1 3 [51]]).2.1 = [[50]] := by
  refine ⟨?_, ?_, ?_⟩
  · intro hle
    simp [processRecord, hrel, hsplit, relFilter, orderingFilter, hoi, hle]
  · intro hlt
    simp [processRecord, hrel, hsplit, relFilter, orderingFilter, hoi,
      show ¬ (s.sequencedReadIndex ≤ oi) from by omega]
  · simp [processRecords, processRecord, relFilter, orderingFilter,
      useqRecord, RaknetConn.init]

/-- C3 witness: the amended theorem applied at a concrete accepting record. -/
theorem c3_amended_witness :
    processRecord RaknetConn.init (useqRecord 0 5 [50]) =
      ({ RaknetConn.init with sequencedReadIndex := 6 }, [[50]], none) :=
  (c3_amended RaknetConn.init (useqRecord 0 5 [50]) 5 rfl rfl rfl).1 (by decide)

/-- C5: evaluating the compressed round trip of `src/bitstream.py` at width 4
(`c_uint`) and value `0x1234` on a fresh byte-aligned stream.
`write_compressed` emits two `1` flag bits, a `0` flag bit and the two low
little-endian bytes (buffer `c6 82 40`), but `read_compressed` builds its
result as `bytes(number_of_bytes - current_byte - 1) + self._read_bytes(...)`,
prepending the zero padding on the little-endian low side, so reading back at
the same position yields `0x12340000 ≠ 0x1234` (the spec's round-trip
property fails; the operands of `+` are swapped). -/
theorem c5_roundtrip_failing_eval :
    ReadStream.readCompressed
        ⟨(WriteStream.empty.writeCompressed (leBytes 4 0x1234)).data, 0⟩ 4 =
      Except.ok (0x12340000,
        ⟨(WriteStream.empty.writeCompressed (leBytes 4 0x1234)).data, 19⟩) ∧
    (0x12340000 : Nat) ≠ 0x1234 := by
  constructor
  · decide
  · decide

/-- C9, counterexample: the 3-byte datagram `80 00 00` announces acks but is
too short for the echoed timestamp; `handle_datagram` raises `EOFError` to
its caller (there is no `try`/`except` anywhere on the path), the connection
is NOT closed (no `Close` event), and the state is unchanged. -/
theorem c9_counterexample :
    handleDatagram 0 RaknetConn.init [0x80, 0, 0] =
      (RaknetConn.init, [], some PyErr.eofError) := by
  decide

/-- C9, amended: a wire-parse error is not caught anywhere on the receive
path: `handle_datagram` propagates it to its caller and dispatches no `Close`
in response, and the state mutations and per-packet events produced before
the raise persist.  The conjuncts cover every stage: a header-stage error
returns the (partially updated) header state with no events and the error; a
successful non-acks header hands the loop exactly its state; a record whose
wire parse or processing raises ends the loop with the events of the records
before it and the error; and a successfully processed record keeps its events
in front of whatever the rest of the loop produces, including a later
propagated error. -/
theorem c9_amended (now : ℚ) (s : RaknetConn) (datagram : List Nat) :
    (∀ s' e, handleDatagramHeader now s ⟨datagram, 0⟩ = (s', Except.error e) →
      handleDatagram now s datagram = (s', [], some e)) ∧
    (∀ s' st, handleDatagramHeader now s ⟨datagram, 0⟩ = (s', Except.ok (st, false)) →
      handleDatagram now s datagram = parseLoop s' st) ∧
    (∀ (s1 : RaknetConn) (st : ReadStream) (e : PyErr),
      st.allRead = false → parseRecord st = Except.error e →
      parseLoop s1 st = (s1, [], some e)) ∧
    (∀ (s1 : RaknetConn) (st st2 : ReadStream) (rec : Record) (e : PyErr),
      st.allRead = false → parseRecord st = Except.ok (rec, st2) →
      (processRecord s1 rec).2.2 = some e →
      parseLoop s1 st =
        ((processRecord s1 rec).1, (dispatchEvents (processRecord s1 rec).2.1).1, some e)) ∧
    (∀ (s1 : RaknetConn) (st st2 : ReadStream) (rec : Record),
      st.allRead = false → parseRecord st = Except.ok (rec, st2) →
      (processRecord s1 rec).2.2 = none →
      (dispatchEvents (processRecord s1 rec).2.1).2 = none →
      parseLoop s1 st =
        ((parseLoop (processRecord s1 rec).1 st2).1,
         (dispatchEvents (processRecord s1 rec).2.1).1 ++
           (parseLoop (processRecord s1 rec).1 st2).2.1,
         (parseLoop (processRecord s1 rec).1 st2).2.2)) := by
  refine ⟨?_, ?_, ?_, ?_, ?_⟩
  · intro s' e h
    unfold handleDatagram
    rw [h]
  · intro s' st h
    unfold handleDatagram
    rw [h]
    rfl
  · intro s1 st e hA h2
    rw [parseLoop, if_neg (show ¬ st.allRead = true by simp [hA])]
    split
    · rename_i e2 heq
      rw [h2] at heq
      injection heq with heq2
      rw [heq2]
    · rename_i rst heq
      rw [h2] at heq
      exact Except.noConfusion heq
  · intro s1 st st2 rec e hA hp hres
    rw [parseLoop, if_neg (show ¬ st.allRead = true by simp [hA])]
    split
    · rename_i e2 heq
      rw [hp] at heq
      exact Except.noConfusion heq
    · rename_i rst heq
      rw [hp] at heq
      injection heq with heq2
      subst heq2
      simp only [hres]
  · intro s1 st st2 rec hA hp hres hevs
    rw [parseLoop, if_neg (show ¬ st.allRead = true by simp [hA])]
    split
    · rename_i e2 heq
      rw [hp] at heq
      exact Except.noConfusion heq
    · rename_i rst heq
      rw [hp] at heq
      injection heq with heq2
      subst heq2
      simp only [hres, hevs]

/-- Concrete instance of `c9_amended`: the two-byte datagram `00 00` passes
the header with no acks and no remote time, then dies reading the first
record's message number; the `EOFError` comes back to the caller with no
events and an unchanged state. -/
theorem c9_amended_witness :
    handleDatagramHeader 0 RaknetConn.init ⟨[0x00, 0x00], 0⟩ =
      (RaknetConn.init, Except.ok (⟨[0x00, 0x00], 2⟩, false)) ∧
    (⟨[0x00, 0x00], 2⟩ : ReadStream).allRead = false ∧
    parseRecord ⟨[0x00, 0x00], 2⟩ = Except.error PyErr.eofError ∧
    handleDatagram 0 RaknetConn.init [0x00, 0x00] =
      (RaknetConn.init, [], some PyErr.eofError) :=
  ⟨by decide, by decide, by decide, by
    have h2 := (c9_amended 0 RaknetConn.init [0x00, 0x00]).2.1 RaknetConn.init
      ⟨[0x00, 0x00], 2⟩ (by decide)
    have h3 := (c9_amended 0 RaknetConn.init [0x00, 0x00]).2.2.1 RaknetConn.init
      ⟨[0x00, 0x00], 2⟩ PyErr.eofError (by decide) (by decide)
    rw [h2, h3]⟩

/-! ### Range-list insertion theory (for C6, C7, C10) -/

theorem inRanges_nil (n : Nat) : ¬ InRanges [] n := by
  simp [InRanges]

theorem inRanges_cons {a : RRange} {l : List RRange} {n : Nat} :
    InRanges (a :: l) n ↔ (a.min ≤ n ∧ n ≤ a.max) ∨ InRanges l n := by
  simp only [InRanges, List.mem_cons]
  constructor
  · rintro ⟨r, (rfl | hr), h1, h2⟩
    · exact Or.inl ⟨h1, h2⟩
    · exact Or.inr ⟨r, hr, h1, h2⟩
  · rintro (⟨h1, h2⟩ | ⟨r, hr, h1, h2⟩)
    · exact ⟨a, Or.inl rfl, h1, h2⟩
    · exact ⟨r, Or.inr hr, h1, h2⟩

theorem rangeChain_of_max_eq {a a' : RRange} {l : List RRange}
    (hmax : a'.max = a.max) (h : List.Chain RangeRel a l) :
    List.Chain RangeRel a' l := by
  cases h with
  | nil => exact List.Chain.nil
  | cons hr hc => exact List.Chain.cons (by simpa [RangeRel, hmax] using hr) hc

/-- Every range after `a` in a well-formed chain starts above `a.max + 1`. -/
theorem rangeChain_all {a : RRange} {l : List RRange}
    (hm : ∀ r ∈ l, r.min ≤ r.max) (h : List.Chain RangeRel a l) :
    ∀ r ∈ l, a.max + 1 < r.min := by
  induction l generalizing a with
  | nil => intro r hr; cases hr
  | cons b t ih =>
    rw [List.chain_cons] at h
    intro r hr
    rcases List.mem_cons.mp hr with rfl | hr'
    · exact h.1
    · have hb := hm b (List.mem_cons_self _ _)
      have := ih (fun r' hr' => hm r' (List.mem_cons_of_mem _ hr')) h.2 r hr'
      have h1 : a.max + 1 < b.min := h.1
      omega

/-- Insertion preserves non-emptiness of every range. -/
theorem insertAux_minle (x : Nat) :
    ∀ l, (∀ r ∈ l, r.min ≤ r.max) → ∀ r ∈ insertAux x l, r.min ≤ r.max := by
  intro l
  induction l with
  | nil =>
    intro _ r hr
    simp only [insertAux, List.mem_singleton] at hr
    simp [hr]
  | cons a rest ih =>
    intro hm
    have ham : a.min ≤ a.max := hm a (List.mem_cons_self _ _)
    have hm' : ∀ r ∈ rest, r.min ≤ r.max := fun r hr => hm r (List.mem_cons_of_mem _ hr)
    cases rest with
    | nil =>
      simp only [insertAux]
      by_cases h1 : a.min = x + 1
      · rw [if_pos h1]
        intro r hr
        rcases List.mem_cons.mp hr with rfl | hr'
        · simp; omega
        · exact hm' r hr'
      · rw [if_neg h1]
        by_cases h2 : a.min ≤ x
        · rw [if_pos h2]
          by_cases h3 : a.max + 1 = x
          · rw [if_pos h3]
            intro r hr
            simp only [List.mem_singleton] at hr
            simp [hr]; omega
          · rw [if_neg h3]
            by_cases h4 : x ≤ a.max
            · rw [if_pos h4]; exact hm
            · rw [if_neg h4]
              intro r hr
              rcases List.mem_cons.mp hr with rfl | hr'
              · exact ham
              · exact ih hm' r hr'
        · rw [if_neg h2]
          intro r hr
          rcases List.mem_cons.mp hr with rfl | hr'
          · simp
          · exact hm r hr'
    | cons b t =>
      have hbm : b.min ≤ b.max := hm' b (List.mem_cons_self _ _)
      simp only [insertAux]
      by_cases h1 : a.min = x + 1
      · rw [if_pos h1]
        intro r hr
        rcases List.mem_cons.mp hr with rfl | hr'
        · simp; omega
        · exact hm' r hr'
      · rw [if_neg h1]
        by_cases h2 : a.min ≤ x
        · rw [if_pos h2]
          by_cases h3 : a.max + 1 = x
          · rw [if_pos h3]
            by_cases h4 : b.min = x + 1
            · rw [if_pos h4]
              intro r hr
              rcases List.mem_cons.mp hr with rfl | hr'
              · simp; omega
              · exact hm' r (List.mem_cons_of_mem _ hr')
            · rw [if_neg h4]
              intro r hr
              rcases List.mem_cons.mp hr with rfl | hr'
              · simp; omega
              · exact hm' r hr'
          · rw [if_neg h3]
            by_cases h4 : x ≤ a.max
            · rw [if_pos h4]; exact hm
            · rw [if_neg h4]
              intro r hr
              rcases List.mem_cons.mp hr with rfl | hr'
              · exact ham
              · exact ih hm' r hr'
        · rw [if_neg h2]
          intro r hr
          rcases List.mem_cons.mp hr with rfl | hr'
          · simp
          · exact hm r hr'

/-- Insertion below a strict lower bound preserves the chain from `prev`. -/
theorem insertAux_chain (x : Nat) :
    ∀ l (prev : RRange), prev.max + 1 < x → (∀ r ∈ l, r.min ≤ r.max) →
      List.Chain RangeRel prev l → List.Chain RangeRel prev (insertAux x l) := by
  intro l
  induction l with
  | nil =>
    intro prev hx _ _
    exact List.Chain.cons hx List.Chain.nil
  | cons a rest ih =>
    intro prev hx hm hc
    rw [List.chain_cons] at hc
    obtain ⟨hpa, hc⟩ := hc
    have ham : a.min ≤ a.max := hm a (List.mem_cons_self _ _)
    have hm' : ∀ r ∈ rest, r.min ≤ r.max := fun r hr => hm r (List.mem_cons_of_mem _ hr)
    cases rest with
    | nil =>
      simp only [insertAux]
      by_cases h1 : a.min = x + 1
      · rw [if_pos h1]
        exact List.Chain.cons (show RangeRel prev _ by simp [RangeRel]; omega) List.Chain.nil
      · rw [if_neg h1]
        by_cases h2 : a.min ≤ x
        · rw [if_pos h2]
          by_cases h3 : a.max + 1 = x
          · rw [if_pos h3]
            exact List.Chain.cons hpa List.Chain.nil
          · rw [if_neg h3]
            by_cases h4 : x ≤ a.max
            · rw [if_pos h4]
              exact List.Chain.cons hpa hc
            · rw [if_neg h4]
              exact List.Chain.cons hpa (ih a (by omega) hm' hc)
        · rw [if_neg h2]
          refine List.Chain.cons (show RangeRel prev _ from hx) (List.Chain.cons ?_ hc)
          simp only [RangeRel]
          omega
    | cons b t =>
      rw [List.chain_cons] at hc
      obtain ⟨hab, hcbt⟩ := hc
      have hbm : b.min ≤ b.max := hm' b (List.mem_cons_self _ _)
      simp only [insertAux]
      by_cases h1 : a.min = x + 1
      · rw [if_pos h1]
        refine List.Chain.cons (show RangeRel prev _ by simp [RangeRel]; omega)
          (List.Chain.cons ?_ hcbt)
        simpa [RangeRel] using hab
      · rw [if_neg h1]
        by_cases h2 : a.min ≤ x
        · rw [if_pos h2]
          by_cases h3 : a.max + 1 = x
          · rw [if_pos h3]
            by_cases h4 : b.min = x + 1
            · rw [if_pos h4]
              exact List.Chain.cons hpa (rangeChain_of_max_eq (a := b) rfl hcbt)
            · rw [if_neg h4]
              refine List.Chain.cons hpa (List.Chain.cons ?_ hcbt)
              have hab' : a.max + 1 < b.min := hab
              simp only [RangeRel]
              omega
          · rw [if_neg h3]
            by_cases h4 : x ≤ a.max
            · rw [if_pos h4]
              exact List.Chain.cons hpa (List.Chain.cons hab hcbt)
            · rw [if_neg h4]
              exact List.Chain.cons hpa (ih a (by omega) hm' (List.Chain.cons hab hcbt))
        · rw [if_neg h2]
          refine List.Chain.cons (show RangeRel prev _ from hx)
            (List.Chain.cons ?_ (List.Chain.cons hab hcbt))
          simp only [RangeRel]
          omega

/-- Insertion preserves well-formedness of the chain (top level). -/
theorem insertAux_chainTop (x : Nat) :
    ∀ l, (∀ r ∈ l, r.min ≤ r.max) → List.Chain' RangeRel l →
      List.Chain' RangeRel (insertAux x l) := by
  intro l
  cases l with
  | nil => intro _ _; simp [insertAux]
  | cons a rest =>
    intro hm hc
    have hc' : List.Chain RangeRel a rest := hc
    have ham : a.min ≤ a.max := hm a (List.mem_cons_self _ _)
    have hm' : ∀ r ∈ rest, r.min ≤ r.max := fun r hr => hm r (List.mem_cons_of_mem _ hr)
    cases rest with
    | nil =>
      simp only [insertAux]
      by_cases h1 : a.min = x + 1
      · rw [if_pos h1]
        exact List.chain'_singleton _
      · rw [if_neg h1]
        by_cases h2 : a.min ≤ x
        · rw [if_pos h2]
          by_cases h3 : a.max + 1 = x
          · rw [if_pos h3]
            exact List.chain'_singleton _
          · rw [if_neg h3]
            by_cases h4 : x ≤ a.max
            · rw [if_pos h4]; exact hc
            · rw [if_neg h4]
              exact show List.Chain RangeRel a _ from
                insertAux_chain x [] a (by omega) hm' List.Chain.nil
        · rw [if_neg h2]
          refine show List.Chain RangeRel ⟨x, x⟩ [a] from List.Chain.cons ?_ List.Chain.nil
          simp only [RangeRel]
          omega
    | cons b t =>
      rw [List.chain_cons] at hc'
      obtain ⟨hab, hcbt⟩ := hc'
      have hbm : b.min ≤ b.max := hm' b (List.mem_cons_self _ _)
      simp only [insertAux]
      by_cases h1 : a.min = x + 1
      · rw [if_pos h1]
        exact show List.Chain RangeRel _ (b :: t) from
          List.Chain.cons (by simpa [RangeRel] using hab) hcbt
      · rw [if_neg h1]
        by_cases h2 : a.min ≤ x
        · rw [if_pos h2]
          by_cases h3 : a.max + 1 = x
          · rw [if_pos h3]
            by_cases h4 : b.min = x + 1
            · rw [if_pos h4]
              exact show List.Chain RangeRel _ t from rangeChain_of_max_eq (a := b) rfl hcbt
            · rw [if_neg h4]
              refine show List.Chain RangeRel _ (b :: t) from List.Chain.cons ?_ hcbt
              have hab' : a.max + 1 < b.min := hab
              simp only [RangeRel]
              omega
          · rw [if_neg h3]
            by_cases h4 : x ≤ a.max
            · rw [if_pos h4]
              exact show List.Chain RangeRel a (b :: t) from List.Chain.cons hab hcbt
            · rw [if_neg h4]
              exact show List.Chain RangeRel a _ from
                insertAux_chain x (b :: t) a (by omega) hm' (List.Chain.cons hab hcbt)
        · rw [if_neg h2]
          refine show List.Chain RangeRel ⟨x, x⟩ (a :: b :: t) from
            List.Chain.cons ?_ (List.Chain.cons hab hcbt)
          simp only [RangeRel]
          omega

set_option maxHeartbeats 1600000 in
/-- Set semantics of insertion: the contained integers gain exactly `x`. -/
theorem insertAux_mem (x n : Nat) :
    ∀ l, (∀ r ∈ l, r.min ≤ r.max) →
      (InRanges (insertAux x l) n ↔ n = x ∨ InRanges l n) := by
  intro l
  induction l with
  | nil =>
    intro _
    simp only [insertAux, inRanges_cons]
    have h1 : ¬ InRanges [] n := inRanges_nil n
    constructor
    · rintro (⟨ha, hb⟩ | hin)
      · left; omega
      · exact absurd hin h1
    · rintro (rfl | hin)
      · left; omega
      · exact absurd hin h1
  | cons a rest ih =>
    intro hm
    have ham : a.min ≤ a.max := hm a (List.mem_cons_self _ _)
    have hm' : ∀ r ∈ rest, r.min ≤ r.max := fun r hr => hm r (List.mem_cons_of_mem _ hr)
    have hD : ¬ a.min = x + 1 → a.min ≤ x → ¬ a.max + 1 = x → ¬ x ≤ a.max →
        (InRanges (a :: insertAux x rest) n ↔ n = x ∨ InRanges (a :: rest) n) := by
      intro _ _ _ _
      constructor
      · intro hmem
        rcases inRanges_cons.mp hmem with hA | hrest
        · exact Or.inr (inRanges_cons.mpr (Or.inl hA))
        · rcases (ih hm').mp hrest with rfl | hr
          · exact Or.inl rfl
          · exact Or.inr (inRanges_cons.mpr (Or.inr hr))
      · intro hmem
        rcases hmem with rfl | hmem
        · exact inRanges_cons.mpr (Or.inr ((ih hm').mpr (Or.inl rfl)))
        · rcases inRanges_cons.mp hmem with hA | hrest
          · exact inRanges_cons.mpr (Or.inl hA)
          · exact inRanges_cons.mpr (Or.inr ((ih hm').mpr (Or.inr hrest)))
    cases rest with
    | nil =>
      rw [insertAux]
      by_cases h1 : a.min = x + 1
      · rw [if_pos h1]
        clear hD ih
        simp only [inRanges_cons]
        have key : ((a.min - 1 ≤ n ∧ n ≤ a.max) ↔ (n = x ∨ (a.min ≤ n ∧ n ≤ a.max))) := by
          omega
        tauto
      · rw [if_neg h1]
        by_cases h2 : a.min ≤ x
        · rw [if_pos h2]
          by_cases h3 : a.max + 1 = x
          · rw [if_pos h3]
            clear hD ih
            simp only [inRanges_cons]
            have h0 : ¬ InRanges [] n := inRanges_nil n
            have key : ((a.min ≤ n ∧ n ≤ a.max + 1) ↔ (n = x ∨ (a.min ≤ n ∧ n ≤ a.max))) := by
              omega
            tauto
          · rw [if_neg h3]
            by_cases h4 : x ≤ a.max
            · rw [if_pos h4]
              clear hD ih
              simp only [inRanges_cons]
              have key : n = x → (a.min ≤ n ∧ n ≤ a.max) := by omega
              tauto
            · rw [if_neg h4]
              exact hD h1 h2 h3 h4
        · rw [if_neg h2]
          clear hD ih
          simp only [inRanges_cons]
          have key : ((x ≤ n ∧ n ≤ x) ↔ n = x) := by omega
          tauto
    | cons b t =>
      have hbm : b.min ≤ b.max := hm' b (List.mem_cons_self _ _)
      rw [insertAux]
      by_cases h1 : a.min = x + 1
      · rw [if_pos h1]
        clear hD ih
        simp only [inRanges_cons]
        have key : ((a.min - 1 ≤ n ∧ n ≤ a.max) ↔ (n = x ∨ (a.min ≤ n ∧ n ≤ a.max))) := by
          omega
        tauto
      · rw [if_neg h1]
        by_cases h2 : a.min ≤ x
        · rw [if_pos h2]
          by_cases h3 : a.max + 1 = x
          · rw [if_pos h3]
            by_cases h4 : b.min = x + 1
            · rw [if_pos h4]
              clear hD ih
              simp only [inRanges_cons]
              have key : ((a.min ≤ n ∧ n ≤ b.max) ↔
                  (n = x ∨ (a.min ≤ n ∧ n ≤ a.max) ∨ (b.min ≤ n ∧ n ≤ b.max))) := by
                omega
              tauto
            · rw [if_neg h4]
              clear hD ih
              simp only [inRanges_cons]
              have key : ((a.min ≤ n ∧ n ≤ a.max + 1) ↔ (n = x ∨ (a.min ≤ n ∧ n ≤ a.max))) := by
                omega
              tauto
          · rw [if_neg h3]
            by_cases h4 : x ≤ a.max
            · rw [if_pos h4]
              clear hD ih
              simp only [inRanges_cons]
              have key : n = x → (a.min ≤ n ∧ n ≤ a.max) := by omega
              tauto
            · rw [if_neg h4]
              exact hD h1 h2 h3 h4
        · rw [if_neg h2]
          clear hD ih
          simp only [inRanges_cons]
          have key : ((x ≤ n ∧ n ≤ x) ↔ n = x) := by omega
          tauto

/-- Inserting an already-contained value is a no-op. -/
theorem insertAux_noop (x : Nat) :
    ∀ l, RangesWF l → InRanges l x → insertAux x l = l := by
  intro l
  induction l with
  | nil => intro _ hin; exact absurd hin (inRanges_nil x)
  | cons a rest ih =>
    intro hwf hin
    obtain ⟨hm, hc⟩ := hwf
    have hc' : List.Chain RangeRel a rest := hc
    have ham : a.min ≤ a.max := hm a (List.mem_cons_self _ _)
    have hm' : ∀ r ∈ rest, r.min ≤ r.max := fun r hr => hm r (List.mem_cons_of_mem _ hr)
    rcases inRanges_cons.mp hin with ⟨hxa, hxb⟩ | hinrest
    · simp only [insertAux]
      rw [if_neg (by omega), if_pos hxa, if_neg (by omega), if_pos hxb]
    · obtain ⟨r', hr', h1', h2'⟩ := hinrest
      have hlt : a.max + 1 < r'.min := rangeChain_all hm' hc' r' hr'
      simp only [insertAux]
      rw [if_neg (by omega), if_pos (by omega), if_neg (by omega), if_neg (by omega)]
      have ht : List.Chain' RangeRel rest := List.Chain'.tail (l := a :: rest) hc
      rw [ih ⟨hm', ht⟩ ⟨r', hr', h1', h2'⟩]

/-- The uncompressed iteration contains exactly the integers of the ranges. -/
theorem toList_mem_iff (l : List RRange) (n : Nat) :
    n ∈ RangeList.toList ⟨l⟩ ↔ InRanges l n := by
  simp only [RangeList.toList, List.mem_flatMap, InRanges]
  constructor
  · rintro ⟨r, hr, hn⟩
    rw [List.mem_range'_1] at hn
    exact ⟨r, hr, by omega⟩
  · rintro ⟨r, hr, h1, h2⟩
    exact ⟨r, hr, by rw [List.mem_range'_1]; omega⟩

/-- Every integer iterated from the tail of a chain is above `prev.max`. -/
theorem toList_lower {prev : RRange} :
    ∀ l, (∀ r ∈ l, r.min ≤ r.max) → List.Chain RangeRel prev l →
      ∀ b ∈ RangeList.toList ⟨l⟩, prev.max < b := by
  intro l hm hc b hb
  rw [toList_mem_iff] at hb
  obtain ⟨r, hr, h1, h2⟩ := hb
  have := rangeChain_all hm hc r hr
  omega

/-- Under well-formedness, iteration is strictly ascending. -/
theorem toList_sorted :
    ∀ l, RangesWF l → List.Pairwise (· < ·) (RangeList.toList ⟨l⟩) := by
  intro l
  induction l with
  | nil => intro _; simp [RangeList.toList]
  | cons a rest ih =>
    intro hwf
    obtain ⟨hm, hc⟩ := hwf
    have hc' : List.Chain RangeRel a rest := hc
    have ham : a.min ≤ a.max := hm a (List.mem_cons_self _ _)
    have hm' : ∀ r ∈ rest, r.min ≤ r.max := fun r hr => hm r (List.mem_cons_of_mem _ hr)
    have htail : List.Chain' RangeRel rest := List.Chain'.tail (l := a :: rest) hc
    show List.Pairwise (· < ·)
      (List.range' a.min (a.max + 1 - a.min) ++ RangeList.toList ⟨rest⟩)
    rw [List.pairwise_append]
    refine ⟨List.pairwise_lt_range' _ _, ih ⟨hm', htail⟩, ?_⟩
    intro m hm1 b hb
    rw [List.mem_range'_1] at hm1
    have := toList_lower rest hm' hc' b hb
    omega

/-- Building a range list by repeated insertion: well-formedness is an
invariant and the contained set accumulates the inserted values. -/
theorem insertAll_spec (xs : List Nat) :
    ∀ l, RangesWF l →
      RangesWF ((RangeList.mk l).insertAll xs).ranges ∧
      (∀ n, InRanges ((RangeList.mk l).insertAll xs).ranges n ↔ n ∈ xs ∨ InRanges l n) := by
  induction xs with
  | nil =>
    intro l hwf
    exact ⟨hwf, fun n => by simp [RangeList.insertAll]⟩
  | cons x xs ih =>
    intro l hwf
    have hstep : (RangeList.mk l).insertAll (x :: xs) =
        (RangeList.mk (insertAux x l)).insertAll xs := by
      simp [RangeList.insertAll, RangeList.insert]
    have hwf' : RangesWF (insertAux x l) :=
      ⟨insertAux_minle x l hwf.1, insertAux_chainTop x l hwf.1 hwf.2⟩
    obtain ⟨hwf2, hmem⟩ := ih (insertAux x l) hwf'
    rw [hstep]
    refine ⟨hwf2, fun n => ?_⟩
    rw [hmem n, insertAux_mem x n l hwf.1]
    simp only [List.mem_cons]
    tauto

/-- C6: for every insertion sequence (any order, duplicates allowed),
iterating the resulting RangeList yields exactly the set of inserted values,
each exactly once, in strictly ascending order; and inserting a value already
contained leaves the list unchanged. -/
theorem c6_rangelist_iteration (xs : List Nat) :
    List.Pairwise (· < ·) (RangeList.empty.insertAll xs).toList ∧
    (∀ n, n ∈ (RangeList.empty.insertAll xs).toList ↔ n ∈ xs) ∧
    (∀ x, x ∈ (RangeList.empty.insertAll xs).toList →
      (RangeList.empty.insertAll xs).insert x = RangeList.empty.insertAll xs) := by
  have hewf : RangesWF ([] : List RRange) := ⟨by simp, by simp⟩
  obtain ⟨hwf, hmem⟩ := insertAll_spec xs [] hewf
  have hL : RangeList.empty.insertAll xs = (RangeList.mk []).insertAll xs := rfl
  refine ⟨?_, ?_, ?_⟩
  · rw [hL]
    have := toList_sorted ((RangeList.mk []).insertAll xs).ranges hwf
    simpa using this
  · intro n
    rw [hL]
    have h1 := toList_mem_iff ((RangeList.mk []).insertAll xs).ranges n
    have h2 := hmem n
    have h3 : ¬ InRanges [] n := inRanges_nil n
    simp only [show RangeList.mk ((RangeList.mk []).insertAll xs).ranges =
      (RangeList.mk []).insertAll xs from rfl] at h1
    rw [h1, h2]
    tauto
  · intro x hx
    rw [hL] at hx ⊢
    have h1 := toList_mem_iff ((RangeList.mk []).insertAll xs).ranges x
    simp only [show RangeList.mk ((RangeList.mk []).insertAll xs).ranges =
      (RangeList.mk []).insertAll xs from rfl] at h1
    rw [h1] at hx
    show RangeList.mk (insertAux x ((RangeList.mk []).insertAll xs).ranges) = _
    rw [insertAux_noop x _ hwf hx]

/-- C6 witness: the no-op part of C6 applied at a concrete duplicate. -/
theorem c6_rangelist_iteration_witness :
    (RangeList.empty.insertAll [3, 1, 3]).insert 3 = RangeList.empty.insertAll [3, 1, 3] :=
  (c6_rangelist_iteration [3, 1, 3]).2.2 3 (by decide)

/-! ### Receive-path state lemmas (for C2 and C10) -/

theorem drainLoop_preserve (s : RaknetConn) (ord : Nat) :
    (drainLoop s ord).1.acks = s.acks ∧
    (drainLoop s ord).1.lastRelReceived = s.lastRelReceived ∧
    (drainLoop s ord).1.sequencedReadIndex = s.sequencedReadIndex ∧
    (drainLoop s ord).1.splitPacketQueue = s.splitPacketQueue ∧
    (drainLoop s ord).1.sendAcksArmed = s.sendAcksArmed := by
  induction s, ord using drainLoop.induct with
  | case1 s ord p h s' ih =>
    rw [drainLoop, h]
    simpa using ih
  | case2 s ord h =>
    rw [drainLoop, h]
    exact ⟨rfl, rfl, rfl, rfl, rfl⟩

theorem orderingFilter_preserve (s : RaknetConn) (r : Record) (payload : List Nat) :
    (orderingFilter s r payload).1.acks = s.acks ∧
    (orderingFilter s r payload).1.lastRelReceived = s.lastRelReceived ∧
    (orderingFilter s r payload).1.splitPacketQueue = s.splitPacketQueue ∧
    (orderingFilter s r payload).1.sendAcksArmed = s.sendAcksArmed := by
  simp only [orderingFilter]
  split
  · split
    · exact ⟨rfl, rfl, rfl, rfl⟩
    · exact ⟨rfl, rfl, rfl, rfl⟩
  · split
    · split
      · have h := drainLoop_preserve
          { s with orderedReadIndex := s.orderedReadIndex + 1 }
          (r.orderingIndex.getD 0 + 1)
        exact ⟨h.1, h.2.1, h.2.2.2.1, h.2.2.2.2⟩
      · split
        · exact ⟨rfl, rfl, rfl, rfl⟩
        · exact ⟨rfl, rfl, rfl, rfl⟩
    · exact ⟨rfl, rfl, rfl, rfl⟩

theorem relFilter_preserve (s : RaknetConn) (r : Record) (payload : List Nat) :
    (relFilter s r payload).1.acks = s.acks ∧
    (relFilter s r payload).1.splitPacketQueue = s.splitPacketQueue ∧
    (relFilter s r payload).1.sendAcksArmed = s.sendAcksArmed := by
  simp only [relFilter]
  split
  · split
    · exact ⟨rfl, rfl, rfl⟩
    · have h := orderingFilter_preserve
        { s with lastRelReceived :=
            s.lastRelReceived.drop 1 ++ [(r.messageNumber : Int)] } r payload
      exact ⟨h.1, h.2.2.1, h.2.2.2⟩
  · have h := orderingFilter_preserve s r payload
    exact ⟨h.1, h.2.2.1, h.2.2.2⟩

/-- The ring after the Reliable filter: shifted when the filter accepts. -/
theorem relFilter_ring (s : RaknetConn) (r : Record) (payload : List Nat) :
    (relFilter s r payload).1.lastRelReceived =
      (if r.reliability = .Reliable ∧ (r.messageNumber : Int) ∉ s.lastRelReceived
       then s.lastRelReceived.drop 1 ++ [(r.messageNumber : Int)]
       else s.lastRelReceived) ∧
    (relFilter s r payload).2.2 = none := by
  simp only [relFilter]
  by_cases h1 : r.reliability = .Reliable
  · rw [if_pos h1]
    by_cases h2 : (r.messageNumber : Int) ∈ s.lastRelReceived
    · rw [if_pos h2, if_neg (by tauto)]
      exact ⟨rfl, rfl⟩
    · rw [if_neg h2, if_pos ⟨h1, h2⟩]
      have h := orderingFilter_preserve
        { s with lastRelReceived :=
            s.lastRelReceived.drop 1 ++ [(r.messageNumber : Int)] } r payload
      exact ⟨h.2.1, rfl⟩
  · rw [if_neg h1, if_neg (by tauto)]
    have h := orderingFilter_preserve s r payload
    exact ⟨h.2.1, rfl⟩

/-- The ACK set after one record: message numbers of Reliable and
ReliableOrdered records are inserted, nothing else changes it. -/
theorem processRecord_acks (s : RaknetConn) (r : Record) :
    (processRecord s r).1.acks =
      (if r.reliability = .Reliable ∨ r.reliability = .ReliableOrdered
       then s.acks.insert r.messageNumber else s.acks) := by
  have hrf : ∀ (s1 : RaknetConn) (pay : List Nat), (relFilter s1 r pay).1.acks = s1.acks :=
    fun s1 pay => (relFilter_preserve s1 r pay).1
  cases hsi : r.splitInfo with
  | none =>
    by_cases hrel : r.reliability = .Reliable ∨ r.reliability = .ReliableOrdered
    · simp only [processRecord, hsi, if_pos hrel]
      rw [hrf]
    · simp only [processRecord, hsi, if_neg hrel]
      rw [hrf]
  | some si =>
    obtain ⟨sid, sidx, scnt⟩ := si
    by_cases hrel : r.reliability = .Reliable ∨ r.reliability = .ReliableOrdered <;>
      [simp only [processRecord, hsi, if_pos hrel];
       simp only [processRecord, hsi, if_neg hrel]] <;>
    · split
      · split
        · rw [hrf]
        · rfl
      · rfl

/-- The ring after one record: shifted exactly on a `ringPush`, and a raised
exception implies no push. -/
theorem processRecord_ring (s : RaknetConn) (r : Record) :
    (processRecord s r).1.lastRelReceived =
      (if ringPush s r then s.lastRelReceived.drop 1 ++ [(r.messageNumber : Int)]
       else s.lastRelReceived) ∧
    ((processRecord s r).2.2 ≠ none → ¬ ringPush s r) := by
  have key : (effectivePayload s r).isSome = true →
      ∀ (s1 : RaknetConn) (pay : List Nat), s1.lastRelReceived = s.lastRelReceived →
      (relFilter s1 r pay).1.lastRelReceived =
        (if ringPush s r then s.lastRelReceived.drop 1 ++ [(r.messageNumber : Int)]
         else s.lastRelReceived) ∧ (relFilter s1 r pay).2.2 = none := by
    intro hep s1 pay h1
    have h := relFilter_ring s1 r pay
    refine ⟨?_, h.2⟩
    rw [h.1, h1]
    by_cases hc : r.reliability = .Reliable ∧ (r.messageNumber : Int) ∉ s.lastRelReceived
    · rw [if_pos hc, if_pos (show ringPush s r from ⟨hep, hc.1, hc.2⟩)]
    · rw [if_neg hc, if_neg (fun hp => hc ⟨hp.2.1, hp.2.2⟩)]
  cases hsi : r.splitInfo with
  | none =>
    have hep : (effectivePayload s r).isSome = true := by
      unfold effectivePayload
      rw [hsi]
      rfl
    by_cases hrel : r.reliability = .Reliable ∨ r.reliability = .ReliableOrdered <;>
      [simp only [processRecord, hsi, if_pos hrel];
       simp only [processRecord, hsi, if_neg hrel]] <;>
    · exact ⟨(key hep _ _ (by rfl)).1, fun h => absurd (key hep _ _ (by rfl)).2 h⟩
  | some si =>
    obtain ⟨sid, sidx, scnt⟩ := si
    by_cases hrel : r.reliability = .Reliable ∨ r.reliability = .ReliableOrdered <;>
      [simp only [processRecord, hsi, if_pos hrel];
       simp only [processRecord, hsi, if_neg hrel]] <;>
    · split
      · rename_i hlt
        split
        · rename_i hall
          have hltS : sidx < (match lookupAssoc s.splitPacketQueue sid with
              | some slots => slots
              | none => List.replicate scnt none).length := hlt
          have hallS : ((match lookupAssoc s.splitPacketQueue sid with
              | some slots => slots
              | none => List.replicate scnt none).set sidx (some r.payload)).all
                (fun o => o.isSome) = true := hall
          have hep : (effectivePayload s r).isSome = true := by
            simp only [effectivePayload, hsi]
            rw [if_pos hltS, if_pos hallS]
            rfl
          exact ⟨(key hep _ _ (by rfl)).1, fun h => absurd (key hep _ _ (by rfl)).2 h⟩
        · rename_i hall
          have hltS : sidx < (match lookupAssoc s.splitPacketQueue sid with
              | some slots => slots
              | none => List.replicate scnt none).length := hlt
          have hallS : ¬ ((match lookupAssoc s.splitPacketQueue sid with
              | some slots => slots
              | none => List.replicate scnt none).set sidx (some r.payload)).all
                (fun o => o.isSome) = true := hall
          have hepN : effectivePayload s r = none := by
            simp only [effectivePayload, hsi]
            rw [if_pos hltS, if_neg hallS]
          have hpush : ¬ ringPush s r := fun hp => by
            have h1 := hp.1
            rw [hepN] at h1
            simp at h1
          exact ⟨by rw [if_neg hpush], fun h => absurd rfl h⟩
      · rename_i hlt
        have hltS : ¬ sidx < (match lookupAssoc s.splitPacketQueue sid with
            | some slots => slots
            | none => List.replicate scnt none).length := hlt
        have hepN : effectivePayload s r = none := by
          simp only [effectivePayload, hsi]
          rw [if_neg hltS]
        have hpush : ¬ ringPush s r := fun hp => by
          have h1 := hp.1
          rw [hepN] at h1
          simp at h1
        exact ⟨by rw [if_neg hpush], fun _ hp => by
          have h1 := hp.1
          rw [hepN] at h1
          simp at h1⟩


/-! ### Acknowledgement of every reliable record (C10) -/

/-- `RangeList.__contains__` agrees with range membership. -/
theorem containsB_iff (l : RangeList) (n : Nat) :
    l.containsB n = true ↔ InRanges l.ranges n := by
  simp [RangeList.containsB, InRanges, List.any_eq_true, Bool.and_eq_true,
    decide_eq_true_eq]

/-- **C10.** Every parsed record with reliability Reliable or ReliableOrdered
has its message number inserted into the `acks` range list by the receive
path, whatever the duplicate/ordering filters later decide: in particular a
record dropped as a duplicate or buffered out of order is still acknowledged. -/
theorem c10_reliable_always_acked (s : RaknetConn) (r : Record)
    (hrel : r.reliability = .Reliable ∨ r.reliability = .ReliableOrdered)
    (hwf : ∀ rr ∈ s.acks.ranges, rr.min ≤ rr.max) :
    (processRecord s r).1.acks.containsB r.messageNumber = true := by
  rw [processRecord_acks, if_pos hrel, containsB_iff]
  exact (insertAux_mem r.messageNumber r.messageNumber s.acks.ranges hwf).mpr (Or.inl rfl)

/-- Concrete instance of `c10_reliable_always_acked`: a fresh Reliable record
with message number 5 is acknowledged from the initial state. -/
theorem c10_reliable_always_acked_witness :
    ((relRecord 5 [1]).reliability = .Reliable ∨
      (relRecord 5 [1]).reliability = .ReliableOrdered) ∧
    (∀ rr ∈ RaknetConn.init.acks.ranges, rr.min ≤ rr.max) ∧
    (processRecord RaknetConn.init (relRecord 5 [1])).1.acks.containsB
      (relRecord 5 [1]).messageNumber = true :=
  ⟨Or.inl rfl, by decide,
    c10_reliable_always_acked RaknetConn.init (relRecord 5 [1]) (Or.inl rfl) (by decide)⟩

/-! ### Reliable duplicate suppression (C2) -/

/-- A non-split Reliable record whose message number is in the
`recent_reliable` ring is dropped: nothing is delivered and the ring does not
change. -/
theorem processRecord_dup (s : RaknetConn) (r : Record)
    (hrel : r.reliability = .Reliable) (hsi : r.splitInfo = none)
    (hmem : (r.messageNumber : Int) ∈ s.lastRelReceived) :
    (processRecord s r).2.1 = [] ∧
    (processRecord s r).1.lastRelReceived = s.lastRelReceived := by
  simp only [processRecord, hsi, if_pos (Or.inl hrel)]
  simp only [relFilter, if_pos hrel, if_pos hmem]
  constructor <;> trivial

/-- A non-split Reliable record whose message number is not in the ring is
delivered, and its message number is pushed, evicting the oldest entry. -/
theorem processRecord_fresh (s : RaknetConn) (r : Record)
    (hrel : r.reliability = .Reliable) (hsi : r.splitInfo = none)
    (hmem : (r.messageNumber : Int) ∉ s.lastRelReceived) :
    (processRecord s r).2.1 = [r.payload] ∧
    (processRecord s r).1.lastRelReceived =
      s.lastRelReceived.drop 1 ++ [(r.messageNumber : Int)] := by
  have h1 : r.reliability ≠ .UnreliableSequenced := by
    rw [hrel]
    intro h
    exact Reliability.noConfusion h
  have h2 : r.reliability ≠ .ReliableOrdered := by
    rw [hrel]
    intro h
    exact Reliability.noConfusion h
  simp only [processRecord, hsi, if_pos (Or.inl hrel)]
  simp only [relFilter, if_pos hrel, if_neg hmem]
  simp only [orderingFilter, if_neg h1, if_neg h2]
  constructor <;> trivial

/-- Evolution of the `recent_reliable` ring over a record list: the pushed
message numbers enter on the right, evicting as many entries on the left, and
the ring length is preserved. -/
theorem processRecords_ring (rs : List Record) :
    ∀ s : RaknetConn, 0 < s.lastRelReceived.length →
      (processRecords s rs).1.lastRelReceived =
        (s.lastRelReceived ++ ringPushes s rs).drop (ringPushes s rs).length ∧
      (processRecords s rs).1.lastRelReceived.length = s.lastRelReceived.length := by
  induction rs with
  | nil =>
    intro s _
    simp [processRecords, ringPushes]
  | cons r rs ih =>
    intro s hlen
    have hpr := processRecord_ring s r
    simp only [processRecords, ringPushes]
    cases he : (processRecord s r).2.2 with
    | some e =>
      have hnp : ¬ ringPush s r := hpr.2 (by rw [he]; exact fun h => Option.noConfusion h)
      simp only [he]
      rw [if_neg hnp]
      constructor
      · rw [hpr.1, if_neg hnp]
        simp
      · rw [hpr.1, if_neg hnp]
    | none =>
      simp only [he]
      by_cases hp : ringPush s r
      · rw [if_pos hp]
        have h1 : (processRecord s r).1.lastRelReceived =
            s.lastRelReceived.drop 1 ++ [(r.messageNumber : Int)] := by
          rw [hpr.1, if_pos hp]
        have hlen1 : (processRecord s r).1.lastRelReceived.length =
            s.lastRelReceived.length := by
          rw [h1]
          simp
          omega
        have hrest := ih (processRecord s r).1 (by rw [hlen1]; exact hlen)
        constructor
        · rw [hrest.1, h1, List.append_assoc,
            ← List.drop_append_of_le_length (by omega : 1 ≤ s.lastRelReceived.length),
            List.drop_drop]
          congr 1
          simp [List.length_append]
          omega
        · rw [hrest.2, hlen1]
      · rw [if_neg hp]
        have h1 : (processRecord s r).1.lastRelReceived = s.lastRelReceived := by
          rw [hpr.1, if_neg hp]
        have hrest := ih (processRecord s r).1 (by rw [h1]; exact hlen)
        simp only [List.nil_append]
        exact ⟨by rw [hrest.1, h1], by rw [hrest.2, h1]⟩

/-- **C2.** A non-split Reliable record is dropped exactly when its message
number is in the 20-entry `recent_reliable` ring: a duplicate delivers nothing
and leaves the ring alone, a fresh record delivers its payload once and is
pushed onto the ring; and after any interlude that pushes fewer than 20
further reliable message numbers, processing the same record again delivers
nothing. -/
theorem c2_reliable_dedup (s : RaknetConn) (r : Record)
    (hrel : r.reliability = .Reliable) (hsi : r.splitInfo = none)
    (hlen : s.lastRelReceived.length = 20) :
    ((r.messageNumber : Int) ∈ s.lastRelReceived →
      (processRecord s r).2.1 = [] ∧
      (processRecord s r).1.lastRelReceived = s.lastRelReceived) ∧
    ((r.messageNumber : Int) ∉ s.lastRelReceived →
      (processRecord s r).2.1 = [r.payload] ∧
      (processRecord s r).1.lastRelReceived =
        s.lastRelReceived.drop 1 ++ [(r.messageNumber : Int)] ∧
      ∀ mid : List Record,
        (ringPushes (processRecord s r).1 mid).length < 20 →
        (processRecord (processRecords (processRecord s r).1 mid).1 r).2.1 = []) := by
  refine ⟨fun hmem => processRecord_dup s r hrel hsi hmem, fun hmem => ?_⟩
  obtain ⟨hd, hr⟩ := processRecord_fresh s r hrel hsi hmem
  refine ⟨hd, hr, fun mid hlt => ?_⟩
  have hlen1 : (processRecord s r).1.lastRelReceived.length = 20 := by
    rw [hr]
    simp
    omega
  have hpr := processRecords_ring mid (processRecord s r).1 (by omega)
  have hmemF : (r.messageNumber : Int) ∈
      (processRecords (processRecord s r).1 mid).1.lastRelReceived := by
    rw [hpr.1, hr, List.append_assoc,
      List.drop_append_of_le_length
        (by simp [hlen]; omega :
          (ringPushes (processRecord s r).1 mid).length ≤
            (s.lastRelReceived.drop 1).length)]
    exact List.mem_append_right _ (List.mem_append_left _ (List.mem_singleton_self _))
  exact (processRecord_dup _ r hrel hsi hmemF).1

/-- Concrete instance of `c2_reliable_dedup`: from the initial state, the
Reliable record with message number 5 delivers its payload `[9]`. -/
theorem c2_reliable_dedup_witness :
    (relRecord 5 [9]).reliability = .Reliable ∧
    (relRecord 5 [9]).splitInfo = none ∧
    RaknetConn.init.lastRelReceived.length = 20 ∧
    (((relRecord 5 [9]).messageNumber : Int) ∉ RaknetConn.init.lastRelReceived) ∧
    (processRecord RaknetConn.init (relRecord 5 [9])).2.1 = [[9]] :=
  ⟨rfl, rfl, by decide, by decide,
    ((c2_reliable_dedup RaknetConn.init (relRecord 5 [9]) rfl rfl (by decide)).2
      (by decide)).1⟩


/-! ### Splitting on send (C4) -/

/-- The chunks of the `_send` loop concatenate to the remaining payload. -/
theorem chunkLoop_join (data : List Nat) (L : Nat) (h : 0 < L) (off : Nat) :
    (chunkLoop data L h off).flatten = data.drop off := by
  have main : ∀ n off, data.length ≤ off + n → (chunkLoop data L h off).flatten = data.drop off := by
    intro n
    induction n with
    | zero =>
      intro off hle
      rw [chunkLoop, if_neg (by omega), List.drop_eq_nil_of_le (by omega)]
      rfl
    | succ n ih =>
      intro off hle
      rw [chunkLoop]
      by_cases hlt : off < data.length
      · have h2 : List.drop L (List.drop off data) = List.drop (off + L) data := by
          rw [List.drop_drop]
        rw [if_pos hlt, List.flatten_cons, ih (off + L) (by omega), ← h2,
          List.take_append_drop]
      · rw [if_neg hlt, List.drop_eq_nil_of_le (by omega)]
        rfl
  exact main data.length off (by omega)

/-- The number of chunks of the `_send` loop is the ceiling of the remaining
length divided by the chunk length. -/
theorem chunkLoop_length (data : List Nat) (L : Nat) (h : 0 < L) (off : Nat) :
    (chunkLoop data L h off).length = (data.length - off + L - 1) / L := by
  have harith : ∀ m, 0 < m → (m - L + L - 1) / L + 1 = (m + L - 1) / L := by
    intro m hm
    rcases le_or_lt L m with hc | hc
    · have e1 : m - L + L - 1 = m - 1 := by omega
      have e2 : m + L - 1 = (m - 1) + L := by omega
      rw [e1, e2, Nat.add_div_right _ h]
    · have e1 : m - L + L - 1 = L - 1 := by omega
      have e2 : (L - 1) / L = 0 := Nat.div_eq_of_lt (by omega)
      have e3 : (m + L - 1) / L = 1 := Nat.div_eq_of_lt_le (by omega) (by omega)
      rw [e1, e2, e3]
  have main : ∀ n off, data.length ≤ off + n →
      (chunkLoop data L h off).length = (data.length - off + L - 1) / L := by
    intro n
    induction n with
    | zero =>
      intro off hle
      have e1 : data.length - off = 0 := by omega
      have e2 : (0 + L - 1) / L = 0 := Nat.div_eq_of_lt (by omega)
      rw [chunkLoop, if_neg (by omega), e1, e2]
      rfl
    | succ n ih =>
      intro off hle
      rw [chunkLoop]
      by_cases hlt : off < data.length
      · rw [if_pos hlt, List.length_cons, ih (off + L) (by omega)]
        have e : data.length - (off + L) = data.length - off - L := by omega
        rw [e]
        exact harith (data.length - off) (by omega)
      · have e1 : data.length - off = 0 := by omega
        have e2 : (0 + L - 1) / L = 0 := Nat.div_eq_of_lt (by omega)
        rw [if_neg hlt, e1, e2]
        rfl
  exact main data.length off (by omega)

/-- The `i`-th chunk of the `_send` loop is the `i`-th slice of length `L`. -/
theorem chunkLoop_get (data : List Nat) (L : Nat) (h : 0 < L) :
    ∀ off i (hi : i < (chunkLoop data L h off).length),
      (chunkLoop data L h off).get ⟨i, hi⟩ = (data.drop (off + i * L)).take L := by
  have main : ∀ n off, data.length ≤ off + n →
      ∀ i (hi : i < (chunkLoop data L h off).length),
        (chunkLoop data L h off).get ⟨i, hi⟩ = (data.drop (off + i * L)).take L := by
    intro n
    induction n with
    | zero =>
      intro off hle i hi
      exfalso
      rw [chunkLoop, if_neg (by omega)] at hi
      simp at hi
    | succ n ih =>
      intro off hle i hi
      by_cases hlt : off < data.length
      · have hEq : chunkLoop data L h off =
            (data.drop off).take L :: chunkLoop data L h (off + L) := by
          rw [chunkLoop, if_pos hlt]
        cases i with
        | zero =>
          rw [List.get_of_eq hEq]
          simp
        | succ j =>
          rw [List.get_of_eq hEq]
          have hj : j < (chunkLoop data L h (off + L)).length := by
            have h2 := hi
            rw [hEq] at h2
            simpa using h2
          have hrec := ih (off + L) (by omega) j hj
          simp only [List.get_eq_getElem] at hrec ⊢
          simp only [List.getElem_cons_succ]
          rw [hrec]
          have harg : off + L + j * L = off + (j + 1) * L := by ring
          rw [harg]
      · exfalso
        rw [chunkLoop, if_neg hlt] at hi
        simp at hi
  intro off i hi
  exact main data.length off (by omega) i hi

/-- One scheduling step does not touch the split-packet id. -/
theorem sendFoldStep_sid (rel : Reliability) (oi : Option Nat) (sid cnt : Nat)
    (acc : RaknetConn × List OutgoingPacket) (ic : Nat × List Nat) :
    (sendFoldStep rel oi sid cnt acc ic).1.splitPacketId = acc.1.splitPacketId := by
  simp only [sendFoldStep, scheduleSend]
  split <;> split <;> rfl

/-- The scheduling fold does not touch the split-packet id. -/
theorem sendFold_sid (rel : Reliability) (oi : Option Nat) (sid cnt : Nat) :
    ∀ (l : List (Nat × List Nat)) (p : RaknetConn × List OutgoingPacket),
      (l.foldl (sendFoldStep rel oi sid cnt) p).1.splitPacketId = p.1.splitPacketId := by
  intro l
  induction l with
  | nil =>
    intro p
    rfl
  | cons a l ih =>
    intro p
    rw [List.foldl_cons, ih, sendFoldStep_sid]

/-- The packets produced by the scheduling fold carry the enumerated chunks
with the common split id and part count. -/
theorem sendFold_pkts (rel : Reliability) (oi : Option Nat) (sid cnt : Nat) :
    ∀ (l : List (Nat × List Nat)) (p : RaknetConn × List OutgoingPacket),
      ((l.foldl (sendFoldStep rel oi sid cnt) p).2).map (fun q => (q.data, q.splitInfo)) =
        p.2.map (fun q => (q.data, q.splitInfo)) ++
          l.map (fun ic => (ic.2, some (sid, ic.1, cnt))) := by
  intro l
  induction l with
  | nil =>
    intro p
    simp
  | cons a l ih =>
    intro p
    rw [List.foldl_cons, ih]
    have hstep : (sendFoldStep rel oi sid cnt p a).2 =
        p.2 ++ [⟨a.2, p.1.sendMessageNumberIndex, rel, oi, some (sid, a.1, cnt)⟩] := rfl
    rw [hstep, List.map_append]
    simp

/-- The ordering-index step leaves the split-packet id and the outgoing
message number unchanged. -/
theorem sendOrderingStep_fields (s : RaknetConn) (rel : Reliability) :
    (sendOrderingStep s rel).2.splitPacketId = s.splitPacketId ∧
    (sendOrderingStep s rel).2.sendMessageNumberIndex = s.sendMessageNumberIndex := by
  simp only [sendOrderingStep]
  split
  · exact ⟨rfl, rfl⟩
  · split <;> exact ⟨rfl, rfl⟩

/-- Below the split threshold, `_send` schedules the payload as one unsplit
packet. -/
theorem send_single (s : RaknetConn) (data : List Nat) (rel : Reliability)
    (h : packetHeaderLength rel false + data.length < MTU_SIZE - UDP_HEADER_SIZE) :
    (s.send data rel).2.map (fun q => (q.data, q.splitInfo)) = [(data, none)] := by
  have hc : ¬ (MTU_SIZE - UDP_HEADER_SIZE ≤ packetHeaderLength rel false + data.length) := by
    omega
  simp only [RaknetConn.send]
  rw [if_neg hc]
  rfl

/-- At or above the split threshold, `_send` schedules the enumerated chunks,
sharing the current split id, and bumps the split id. -/
theorem send_split (s : RaknetConn) (data : List Nat) (rel : Reliability)
    (h : MTU_SIZE - UDP_HEADER_SIZE ≤ packetHeaderLength rel false + data.length) :
    (s.send data rel).2.map (fun q => (q.data, q.splitInfo)) =
      (chunkLoop data (MTU_SIZE - UDP_HEADER_SIZE - packetHeaderLength rel true)
        (chunkLenPos rel) 0).enum.map
        (fun ic => (ic.2, some (s.splitPacketId, ic.1,
          (chunkLoop data (MTU_SIZE - UDP_HEADER_SIZE - packetHeaderLength rel true)
            (chunkLenPos rel) 0).length))) ∧
    (s.send data rel).1.splitPacketId = s.splitPacketId + 1 := by
  have hsid : (sendOrderingStep s rel).2.splitPacketId = s.splitPacketId :=
    (sendOrderingStep_fields s rel).1
  simp only [RaknetConn.send]
  rw [if_pos h]
  constructor
  · rw [sendFold_pkts, hsid]
    simp
  · rw [sendFold_sid]
    show (sendOrderingStep s rel).2.splitPacketId + 1 = s.splitPacketId + 1
    rw [hsid]

/-- **C4** refuted at the boundary: for an Unreliable payload of 1193 bytes the
unsplit header (7 bytes) plus the payload occupies exactly the `MTU −
UDP_HEADER = 1200` budget, so by the spec it fits and should be sent as a
single packet, but `_send` splits it in two. -/
theorem c4_counterexample :
    packetHeaderLength .Unreliable false + (List.replicate 1193 (0 : Nat)).length ≤
      MTU_SIZE - UDP_HEADER_SIZE ∧
    (RaknetConn.init.send (List.replicate 1193 0) .Unreliable).2.length = 2 := by
  refine ⟨by simp [packetHeaderLength, MTU_SIZE, UDP_HEADER_SIZE], ?_⟩
  have h := (send_split RaknetConn.init (List.replicate 1193 0) .Unreliable
    (by simp [packetHeaderLength, MTU_SIZE, UDP_HEADER_SIZE])).1
  have h2 := congrArg List.length h
  rw [List.length_map, List.length_map, List.enum_length, chunkLoop_length] at h2
  rw [h2]
  decide

/-- **C4** (amended): `send` schedules one unsplit packet exactly when the
unsplit header plus payload is strictly below `MTU − UDP_HEADER = 1200` bytes
(the code splits already at equality); otherwise it cuts the payload into
consecutive `1200 − header(split)`-byte slices (the last possibly shorter)
whose concatenation is the payload, numbered `0,…,count−1` with count the
ceiling of the division, all sharing the freshly consumed split id. -/
theorem c4_amended_send_split (s : RaknetConn) (data : List Nat) (rel : Reliability) :
    (packetHeaderLength rel false + data.length < MTU_SIZE - UDP_HEADER_SIZE →
      (s.send data rel).2.map (fun q => (q.data, q.splitInfo)) = [(data, none)]) ∧
    (MTU_SIZE - UDP_HEADER_SIZE ≤ packetHeaderLength rel false + data.length →
      (s.send data rel).2.length =
        (data.length + (MTU_SIZE - UDP_HEADER_SIZE - packetHeaderLength rel true) - 1) /
          (MTU_SIZE - UDP_HEADER_SIZE - packetHeaderLength rel true) ∧
      ((s.send data rel).2.map OutgoingPacket.data).flatten = data ∧
      (∀ i, ∀ hi : i < (s.send data rel).2.length,
        ((s.send data rel).2.get ⟨i, hi⟩).data =
          (data.drop (i * (MTU_SIZE - UDP_HEADER_SIZE - packetHeaderLength rel true))).take
            (MTU_SIZE - UDP_HEADER_SIZE - packetHeaderLength rel true) ∧
        ((s.send data rel).2.get ⟨i, hi⟩).splitInfo =
          some (s.splitPacketId, i, (s.send data rel).2.length)) ∧
      (s.send data rel).1.splitPacketId = s.splitPacketId + 1) := by
  constructor
  · exact send_single s data rel
  · intro h
    obtain ⟨hmap, hsid⟩ := send_split s data rel h
    have hlen : (s.send data rel).2.length =
        (chunkLoop data (MTU_SIZE - UDP_HEADER_SIZE - packetHeaderLength rel true)
          (chunkLenPos rel) 0).length := by
      have h2 := congrArg List.length hmap
      rwa [List.length_map, List.length_map, List.enum_length] at h2
    refine ⟨?_, ?_, ?_, hsid⟩
    · rw [hlen, chunkLoop_length]
      simp
    · have hdata : (s.send data rel).2.map OutgoingPacket.data =
          chunkLoop data (MTU_SIZE - UDP_HEADER_SIZE - packetHeaderLength rel true)
            (chunkLenPos rel) 0 := by
        have h2 := congrArg (List.map Prod.fst) hmap
        rw [List.map_map, List.map_map] at h2
        have h3 : (s.send data rel).2.map OutgoingPacket.data =
            (chunkLoop data (MTU_SIZE - UDP_HEADER_SIZE - packetHeaderLength rel true)
              (chunkLenPos rel) 0).enum.map Prod.snd := h2
        rw [h3, List.enum_map_snd]
      rw [hdata, chunkLoop_join, List.drop_zero]
    · intro i hi
      have hi1 : i < ((s.send data rel).2.map (fun q => (q.data, q.splitInfo))).length := by
        rw [List.length_map]
        exact hi
      have h1 := List.getElem_of_eq hmap hi1
      simp only [List.getElem_map, List.getElem_enum, Prod.mk.injEq] at h1
      have hic : i < (chunkLoop data (MTU_SIZE - UDP_HEADER_SIZE - packetHeaderLength rel true)
          (chunkLenPos rel) 0).length := by
        rw [← hlen]
        exact hi
      have hg := chunkLoop_get data (MTU_SIZE - UDP_HEADER_SIZE - packetHeaderLength rel true)
        (chunkLenPos rel) 0 i hic
      rw [Nat.zero_add] at hg
      refine ⟨h1.1.trans hg, ?_⟩
      conv_rhs => rw [hlen]
      exact h1.2

/-- Concrete instance of `c4_amended_send_split`: the 1193-byte Unreliable
payload above is split into the ceiling number of chunks. -/
theorem c4_amended_send_split_witness :
    (MTU_SIZE - UDP_HEADER_SIZE ≤
      packetHeaderLength .Unreliable false + (List.replicate 1193 (0 : Nat)).length) ∧
    (RaknetConn.init.send (List.replicate 1193 0) .Unreliable).2.length =
      ((List.replicate 1193 (0 : Nat)).length +
          (MTU_SIZE - UDP_HEADER_SIZE - packetHeaderLength .Unreliable true) - 1) /
        (MTU_SIZE - UDP_HEADER_SIZE - packetHeaderLength .Unreliable true) :=
  ⟨by simp [packetHeaderLength, MTU_SIZE, UDP_HEADER_SIZE],
    ((c4_amended_send_split RaknetConn.init (List.replicate 1193 0) .Unreliable).2
      (by simp [packetHeaderLength, MTU_SIZE, UDP_HEADER_SIZE])).1⟩

end Pyraknet
